import Mathlib

set_option maxRecDepth 8192

/-
Verification of the Code-attribute codec of the terry repository
(src/terryc/coffer/bytecode/src/code.rs, src/terryc/coffer/bytecode/src/cp.rs).

The Rust source is shallowly embedded: pure functions become Lean functions,
stateful loops become explicit folds, machine integers become Nat/Int with an
explicit `% 2 ^ w` where overflow matters, fallible code returns Except, and
code that can also panic (HashMap indexing, Option::unwrap) returns PResult.
Parts of the repository that the source tree does not contain (the files behind
`mod structure`, `mod convert` and `mod insn`, i.e. the instruction model, the
per-instruction byte layout and the derive-generated readers) are modelled from
the specification; every such definition carries a doc comment starting with
`Modelled from the spec:`.
-/

/-! ## Errors and results -/

/-- The crate error type, reduced to the shapes the codec constructs:
`Error::Invalid(context, value)` plus a single constructor standing for
truncation / IO failure while decoding. -/
inductive Err : Type where
  | invalid (ctx : String) (val : String)
  | truncated
deriving DecidableEq

/-- Result of code that can return a value, return an error, or panic
(`unwrap`, `HashMap` indexing).  Rust panics are not values, so `PResult.panic`
marks control flow that never reaches a `Result`. -/
inductive PResult (α : Type) : Type where
  | ok (a : α)
  | error (e : Err)
  | panic
deriving DecidableEq

deriving instance DecidableEq for Except

/-- Association-list lookup (model of `HashMap::get`): first binding wins. -/
def alookup {α β : Type} [DecidableEq α] : List (α × β) → α → Option β
  | [], _ => none
  | (k, v) :: l, a => if a = k then some v else alookup l a

/-! ## Byte-level helpers (big-endian, as in the `ReadWrite` impls) -/

/-- Big-endian bytes of a `u16` value. -/
def u16Bytes (n : Nat) : List Nat := [n / 256 % 256, n % 256]

/-- Big-endian bytes of a `u32` value. -/
def u32Bytes (n : Nat) : List Nat :=
  [n / 16777216 % 256, n / 65536 % 256, n / 256 % 256, n % 256]

/-- Big-endian bytes of an `i32` value (two's complement). -/
def i32Bytes (v : Int) : List Nat := u32Bytes (Int.toNat (v % 4294967296))

/-- Decode two big-endian bytes as a signed 16-bit integer. -/
def i16OfBytes (hi lo : Nat) : Int :=
  let v := hi * 256 + lo
  if v < 32768 then (v : Int) else (v : Int) - 65536

/-! ## Constant pool (src/terryc/coffer/bytecode/src/cp.rs) -/

/-- `RawConstantEntry` (cp.rs lines 110-133).  `Float`/`Double` wrap `TotalF32`
/ `TotalF64`, whose `Eq`/`Hash` act on the IEEE bit pattern (`to_bits`,
cp.rs lines 74-84); the model therefore stores the bit pattern itself, so
equality of the model is exactly the bitwise equality of the source. -/
inductive RawConstantEntry : Type where
  | utf8 (s : String)
  | int (v : Int)
  | float (bits : Nat)
  | long (v : Int)
  | double (bits : Nat)
  | classRef (i : Nat)
  | stringRef (i : Nat)
  | field (a b : Nat)
  | method (a b : Nat)
  | interfaceMethod (a b : Nat)
  | nameAndType (a b : Nat)
  | methodHandle (k i : Nat)
  | methodType (i : Nat)
  | dynamic (a b : Nat)
  | invokeDynamic (a b : Nat)
  | moduleInfo (i : Nat)
  | packageInfo (i : Nat)
deriving DecidableEq

/-- `RawConstantEntry::size` (cp.rs lines 138-143): wide entries (Long/Double)
occupy two constant-pool slots. -/
def RawConstantEntry.size : RawConstantEntry → Nat
  | .long _ => 2
  | .double _ => 2
  | _ => 1

/-- Modelled from the spec: `BootstrapMethod` (`{handle, args[]}`, spec §3);
its definition lives in a file that is not part of the source tree.  Only its
identity matters to the claims. -/
structure BootstrapMethod where
  handle : Nat
  args : List Nat
deriving DecidableEq

/-- `VecCp` (cp.rs lines 164-170): the writer pool.  `prev_entries` models the
dedup `HashMap<RawConstantEntry, u16>`, `len` the running `u16` length. -/
structure VecCp where
  entries : List RawConstantEntry
  prev_entries : List (RawConstantEntry × Nat)
  len : Nat
  bsm : List BootstrapMethod
deriving DecidableEq

/-- `VecCp::new` (cp.rs lines 174-181). -/
def VecCp.new : VecCp :=
  { entries := [], prev_entries := [], len := 1, bsm := [] }

/-- `VecCp::insert_raw` (cp.rs lines 270-281).  `self.len = idx + value.size()`
is `u16` arithmetic, hence the `% 65536`. -/
def VecCp.insertRaw (cp : VecCp) (value : RawConstantEntry) : Nat × VecCp :=
  match alookup cp.prev_entries value with
  | some val => (val, cp)
  | none =>
    let idx := cp.len
    (idx, { cp with
        len := (idx + value.size) % 65536
        entries := cp.entries ++ [value]
        prev_entries := (value, idx) :: cp.prev_entries })

/-- `VecCp::insert_bsm` (cp.rs lines 283-287). -/
def VecCp.insertBsm (cp : VecCp) (bsm : BootstrapMethod) : Nat × VecCp :=
  (cp.bsm.length, { cp with bsm := cp.bsm ++ [bsm] })

/-! ## Bootstrap-method resolution (MapCp, cp.rs lines 227-253)

`MapCp.refs : HashMap<u16, Vec<Rc<LazyBsm>>>` maps a bootstrap-method index to
the holders registered by `resolve_later`.  A `LazyBsm` holder is a one-shot
fillable cell; the model identifies holders by a number and returns the list of
(holder, method) fills that `bootstrap_methods` performs (in Rust these are
side effects on the `Rc` cells, performed even when the call then errors). -/

/-- `MapCp::resolve_later` (cp.rs lines 232-234): `entry(idx).or_default().push`. -/
def resolveLater (refs : List (Nat × List Nat)) (bsmIdx : Nat) (h : Nat) :
    List (Nat × List Nat) :=
  match refs with
  | [] => [(bsmIdx, [h])]
  | (k, v) :: l =>
    if bsmIdx = k then (k, v ++ [h]) :: l else (k, v) :: resolveLater l bsmIdx h

/-- The fill loop of `MapCp::bootstrap_methods` (cp.rs lines 237-243): for each
`(i, b)` in the enumerated methods, an occupied `refs` entry at key `i` is
removed and each registered holder is filled with `b`. -/
def bootstrapFill : List (Nat × List Nat) → Nat → List BootstrapMethod →
    List (Nat × BootstrapMethod) × List (Nat × List Nat)
  | refs, _, [] => ([], refs)
  | refs, i, b :: bs =>
    match alookup refs i with
    | some hs =>
      let rest := bootstrapFill (refs.filter (fun e => decide (e.1 ≠ i))) (i + 1) bs
      (hs.map (fun h => (h, b)) ++ rest.1, rest.2)
    | none =>
      bootstrapFill refs (i + 1) bs

/-- `MapCp::bootstrap_methods` (cp.rs lines 236-252): perform the fills, then
fail if some registered holder list is still present and non-empty.  The Rust
error is `Error::Invalid("reference(s) to bootstrap method", format!(..))`; the
formatted payload is data-dependent debug output, kept abstract here. -/
def bootstrapMethods (refs : List (Nat × List Nat)) (bsms : List BootstrapMethod) :
    List (Nat × BootstrapMethod) × Except Err Unit :=
  let r := bootstrapFill refs 0 bsms
  (r.1,
    if r.2.any (fun e => !e.2.isEmpty) then
      .error (.invalid "reference(s) to bootstrap method" "unresolved holders")
    else
      .ok ())

/-! ## Stack-map frames (code.rs lines 604-740) -/

/-- `VerificationType` (code.rs lines 604-617).  `Object` carries the resolved
class name, `UninitializedVariable` a label id. -/
inductive VerificationType : Type where
  | top
  | int
  | float
  | long
  | double
  | null
  | uninitializedThis
  | object (s : String)
  | uninitializedVariable (l : Nat)
deriving DecidableEq

/-- `RawFrame` (code.rs lines 625-635). -/
inductive RawFrame : Type where
  | same (off : Nat)
  | sameLocalsOneStack (off : Nat) (v : VerificationType)
  | chop (off : Nat) (n : Nat)
  | append (off : Nat) (locals : List VerificationType)
  | full (off : Nat) (locals stack : List VerificationType)
deriving DecidableEq

/-- Reader-side constant pool context: the trait methods
`ConstantPoolReader::read_class` and `get_label` that the derived
`VerificationType::read_from` invokes. -/
structure CpReadCtx where
  readClass : Nat → Option String
  getLabel : Nat → Nat

/-- Writer-side constant pool context: `insert_class` and the writer `Labeler`'s
`label` resolver (code.rs lines 498-505). -/
structure CpWriteCtx where
  insertClass : String → Nat
  label : Nat → Nat

/-- Read a `u8` from the byte stream. -/
def readU8 : List Nat → Except Err (Nat × List Nat)
  | [] => .error .truncated
  | b :: r => .ok (b, r)

/-- Read a big-endian `u16` from the byte stream. -/
def readU16 : List Nat → Except Err (Nat × List Nat)
  | hi :: lo :: r => .ok (hi * 256 + lo, r)
  | _ => .error .truncated

/-- Modelled from the spec: the derive-generated
`VerificationType::read_from` (the derive macro implementation is not in the
source tree; the tag order is the declaration order of code.rs lines 604-617
with `#[tag_type(u8)]`, and §4.6 of the spec lists the same tags).  `Object`
reads a `u16` class index, `UninitializedVariable` reads a `u16` offset turned
into a label. -/
def VerificationType.readFrom (cp : CpReadCtx) (bytes : List Nat) :
    Except Err (VerificationType × List Nat) := do
  let (tag, r) ← readU8 bytes
  match tag with
  | 0 => .ok (.top, r)
  | 1 => .ok (.int, r)
  | 2 => .ok (.float, r)
  | 3 => .ok (.long, r)
  | 4 => .ok (.double, r)
  | 5 => .ok (.null, r)
  | 6 => .ok (.uninitializedThis, r)
  | 7 => do
    let (idx, r2) ← readU16 r
    match cp.readClass idx with
    | some s => .ok (.object s, r2)
    | none => .error (.invalid "class index" (toString idx))
  | 8 => do
    let (off, r2) ← readU16 r
    .ok (.uninitializedVariable (cp.getLabel off), r2)
  | _ => .error (.invalid "verification type tag" (toString tag))

/-- Modelled from the spec: the derive-generated `VerificationType::write_to`
(counterpart of `readFrom`; tags in declaration order). -/
def VerificationType.writeTo (cp : CpWriteCtx) : VerificationType → List Nat
  | .top => [0]
  | .int => [1]
  | .float => [2]
  | .long => [3]
  | .double => [4]
  | .null => [5]
  | .uninitializedThis => [6]
  | .object s => 7 :: u16Bytes (cp.insertClass s)
  | .uninitializedVariable l => 8 :: u16Bytes (cp.label l)

/-- Read `n` verification types in sequence (the `for _ in 251..tag` and
`for _ in 0..count` loops of `RawFrame::read_from`). -/
def readVTypes (cp : CpReadCtx) : Nat → List Nat →
    Except Err (List VerificationType × List Nat)
  | 0, bytes => .ok ([], bytes)
  | n + 1, bytes => do
    let (v, r) ← VerificationType.readFrom cp bytes
    let (vs, r2) ← readVTypes cp n r
    .ok (v :: vs, r2)

/-- `RawFrame::read_from` (code.rs lines 638-688).  The byte stream supplies
`u8` values, so every tag is at most 255 and the final catch-all arm of the
Rust `match` is tag 255. -/
def RawFrame.readFrom (cp : CpReadCtx) (bytes : List Nat) :
    Except Err (RawFrame × List Nat) := do
  let (tag, r) ← readU8 bytes
  if tag ≤ 63 then
    .ok (.same tag, r)
  else if tag ≤ 127 then do
    let (v, r2) ← VerificationType.readFrom cp r
    .ok (.sameLocalsOneStack (tag - 64) v, r2)
  else if tag ≤ 246 then
    .error (.invalid "tag (is reserved for future use)" (toString tag))
  else if tag = 247 then do
    let (off, r2) ← readU16 r
    let (v, r3) ← VerificationType.readFrom cp r2
    .ok (.sameLocalsOneStack off v, r3)
  else if tag ≤ 250 then do
    let (off, r2) ← readU16 r
    .ok (.chop off (251 - tag), r2)
  else if tag = 251 then do
    let (off, r2) ← readU16 r
    .ok (.same off, r2)
  else if tag ≤ 254 then do
    let (off, r2) ← readU16 r
    let (vs, r3) ← readVTypes cp (tag - 251) r2
    .ok (.append off vs, r3)
  else do
    let (off, r2) ← readU16 r
    let (nLocals, r3) ← readU16 r2
    let (locals, r4) ← readVTypes cp nLocals r3
    let (nStack, r5) ← readU16 r4
    let (stack, r6) ← readVTypes cp nStack r5
    .ok (.full off locals stack, r6)

/-- `RawFrame::write_to` (code.rs lines 690-739).  Match arms are guarded in
source order (`off @ 0..=63` before the general arm, `chop @ 1..=3`,
`locals.len() <= 3`). -/
def RawFrame.writeTo (cp : CpWriteCtx) : RawFrame → Except Err (List Nat)
  | .same off =>
    if off ≤ 63 then .ok [off]
    else .ok (251 :: u16Bytes off)
  | .sameLocalsOneStack off v =>
    if off ≤ 63 then .ok ((off + 64) :: v.writeTo cp)
    else .ok (247 :: u16Bytes off ++ v.writeTo cp)
  | .chop off n =>
    if 1 ≤ n ∧ n ≤ 3 then .ok ((251 - n) :: u16Bytes off)
    else .error (.invalid "Chop value" (toString n))
  | .append off locals =>
    if locals.length ≤ 3 then
      .ok ((locals.length + 251) :: u16Bytes off ++
        (locals.map (fun v => v.writeTo cp)).flatten)
    else .error (.invalid "Append" "locals length > 3")
  | .full off locals stack =>
    .ok (255 :: u16Bytes off ++ u16Bytes locals.length ++
      (locals.map (fun v => v.writeTo cp)).flatten ++
      u16Bytes stack.length ++
      (stack.map (fun v => v.writeTo cp)).flatten)

/-! ## Instruction model

The files behind `mod structure`, `mod convert` and `crate::insn` are not part
of the source tree, so the instruction union, its per-instruction byte layout
and the first write pass are modelled from the spec (§3, §4.5).  The subset
below covers the pseudo-instructions and the whole jump family (the only
variants the write-path algorithms of code.rs dispatch on) plus `Nop` and
`Return` as representatives of the fixed-size instructions. -/

/-- Modelled from the spec: jump conditions (spec §3). -/
inductive JumpCondition : Type where
  | always
  | eq
  | ne
  | lt
  | ge
  | gt
  | le
  | isNull
  | isNonNull
deriving DecidableEq

/-- Modelled from the spec: the JVM opcode of a conditional jump
(`Into<u8> for JumpCondition`, not in the source tree).  `always` maps to
`goto`, which the write path handles in a separate arm. -/
def JumpCondition.opcode : JumpCondition → Nat
  | .eq => 153
  | .ne => 154
  | .lt => 155
  | .ge => 156
  | .gt => 157
  | .le => 158
  | .isNull => 198
  | .isNonNull => 199
  | .always => 167

/-- Modelled from the spec: condition inversion (`Neg for JumpCondition`; spec
§4.5 shows `ifnull` ↦ `ifnonnull`).  In Rust `-Always` is `None`; the wide
conditional arm unwraps it behind an unreachable hint, so `always` here keeps
an arbitrary value. -/
def JumpCondition.invert : JumpCondition → JumpCondition
  | .eq => .ne
  | .ne => .eq
  | .lt => .ge
  | .ge => .lt
  | .gt => .le
  | .le => .gt
  | .isNull => .isNonNull
  | .isNonNull => .isNull
  | .always => .always

/-- Modelled from the spec: the instruction union (spec §3).  Labels are
identity tokens (numbers); `label`/`lineNumber` are the zero-byte
pseudo-instructions. -/
inductive Instruction : Type where
  | nop
  | return_
  | label (l : Nat)
  | lineNumber (n : Nat)
  | jump (c : JumpCondition) (target : Nat)
  | jsr (target : Nat)
  | tableSwitch (default : Nat) (low : Int) (offsets : List Nat)
  | lookupSwitch (default : Nat) (table : List (Int × Nat))
deriving DecidableEq

/-- Association-list insert-or-replace (model of `HashMap::insert`). -/
def aInsert {α β : Type} [DecidableEq α] : List (α × β) → α → β → List (α × β)
  | [], k, v => [(k, v)]
  | (k1, v1) :: l, k, v =>
    if k = k1 then (k, v) :: l else (k1, v1) :: aInsert l k v

/-! ## Code write path (code.rs lines 257-601) -/

/-- State of the first write pass (code.rs lines 266-294): completed byte
segments, the current cursor, the deferred jumps, the label map
`Label → (buf_index, inner_offset)` and the stashed line numbers. -/
structure PassAState where
  buf : List (List Nat)
  cursor : List Nat
  jumps : List Instruction
  labels : List (Nat × (Nat × Nat))
  line_numbers : List (Nat × Nat)
deriving DecidableEq

/-- Modelled from the spec: one step of `Conv::write_insn` (spec §4.5 pass A;
`mod convert` is not in the source tree).  A non-jump instruction appends its
bytes to the cursor; `Label` records `(buf_index, cursor_offset)`;
`LineNumber` is stashed with the current cursor position; a jump flushes the
cursor as a completed segment and defers the jump. -/
def writeInsn (st : PassAState) : Instruction → PassAState
  | .nop => { st with cursor := st.cursor ++ [0] }
  | .return_ => { st with cursor := st.cursor ++ [177] }
  | .label l =>
    { st with labels := aInsert st.labels l (st.buf.length, st.cursor.length) }
  | .lineNumber n =>
    { st with line_numbers := aInsert st.line_numbers st.cursor.length n }
  | i =>
    { st with buf := st.buf ++ [st.cursor], cursor := [], jumps := st.jumps ++ [i] }

/-- Pass A over the instruction list, then `buf.push(cursor.into_inner())`
(code.rs line 294). -/
def passA (code : List Instruction) : PassAState :=
  let st := code.foldl writeInsn
    { buf := [], cursor := [], jumps := [], labels := [], line_numbers := [] }
  { st with buf := st.buf ++ [st.cursor], cursor := [] }

/-- Worst-case encoded size of a deferred jump (code.rs lines 300-311):
`1 + (11 + 8n | 15 + 4n | 4 | 7)`.  Variants never pushed into `jumps` sit
behind `unreachable_unchecked` in Rust; they get 0 here. -/
def worstSize : Instruction → Nat
  | .lookupSwitch _ table => 1 + (11 + table.length * 8)
  | .tableSwitch _ _ offsets => 1 + (15 + offsets.length * 4)
  | .jsr _ => 1 + 4
  | .jump c _ => if c = .always then 1 + 4 else 1 + 7
  | _ => 0

/-- `index_hints` (code.rs lines 295-314): running upper bound of where each
buffer segment can end. -/
def indexHintsAux : List Instruction → List (List Nat) → Nat → List Nat
  | [], _, _ => []
  | j :: js, bufs, acc =>
    let acc2 := acc + worstSize j + (bufs.headD []).length
    acc2 :: indexHintsAux js bufs.tail acc2

/-- `index_hints` for the jumps of a pass-A state. -/
def indexHints (jumps : List Instruction) (buf : List (List Nat)) : List Nat :=
  indexHintsAux jumps buf 0

/-- The `get_label!` macro (code.rs lines 271-281): a missing label is
`Error::Invalid("referenced label", id)`. -/
def getLabelW (labels : List (Nat × (Nat × Nat))) (t : Nat) :
    Except Err (Nat × Nat) :=
  match alookup labels t with
  | some l => .ok l
  | none => .error (.invalid "referenced label" (toString t))

/-- Upper-bound absolute offset of a label target used by the sizing pass
(code.rs lines 350-354, 363-367): `index_hints[buf_idx - 1] + buf_off`
(0 for the first segment). -/
def targetOffUB (hints : List Nat) (l : Nat × Nat) : Nat :=
  (if l.1 ≠ 0 then hints.getD (l.1 - 1) 0 else 0) + l.2

/-- Number of zero padding bytes the write path uses for `tableswitch` /
`lookupswitch` (code.rs lines 341, 347, 418, 436): `3 - (p + 1) % 4` where `p`
is the byte offset of the opcode. -/
def switchPad (p : Nat) : Nat := 3 - (p + 1) % 4

/-- Exact size chosen by the sizing pass for one jump whose opcode sits at
byte offset `lastIdx` (code.rs lines 335-376). -/
def jumpActualSize (labels : List (Nat × (Nat × Nat))) (hints : List Nat)
    (lastIdx : Nat) : Instruction → Except Err Nat
  | .lookupSwitch _ table => .ok (1 + (switchPad lastIdx + 8 + table.length * 8))
  | .tableSwitch _ _ offsets => .ok (1 + (switchPad lastIdx + 12 + offsets.length * 4))
  | .jsr target => do
    let l ← getLabelW labels target
    .ok (1 + if targetOffUB hints l ≤ 65535 then 2 else 4)
  | .jump c target => do
    let l ← getLabelW labels target
    if c = .always then
      .ok (1 + if targetOffUB hints l ≤ 65535 then 2 else 4)
    else
      .ok (1 + if targetOffUB hints l ≤ 65535 then 2 else 7)
  | _ => .ok 0

/-- The sizing pass (code.rs lines 328-380): walks the jumps with the exact
cursor `last_idx`, producing `actual_sizes` and `actual_indices`. -/
def sizingPass (labels : List (Nat × (Nat × Nat))) (hints : List Nat) :
    List Instruction → List (List Nat) → Nat → Except Err (List Nat × List Nat)
  | [], _, _ => .ok ([], [])
  | j :: js, bufs, lastIdx0 => do
    let lastIdx := lastIdx0 + (bufs.headD []).length
    let sz ← jumpActualSize labels hints lastIdx j
    let rest ← sizingPass labels hints js bufs.tail (lastIdx + sz)
    .ok (sz :: rest.1, (lastIdx + sz) :: rest.2)

/-- The `resolve_label!` macro (code.rs lines 391-401): absolute target offset
minus `actual_indices[i]` plus `actual_sizes[i]`, i.e. the offset relative to
the jump opcode.  (Rust computes this with `i32` wrapping arithmetic; sizes
stay far below `2^31`, so plain `Int` is used.) -/
def resolveLabel (labels : List (Nat × (Nat × Nat))) (indices : List Nat)
    (idx act : Nat) (t : Nat) : Except Err Int := do
  let l ← getLabelW labels t
  let thatOff : Nat := (if l.1 = 0 then 0 else indices.getD (l.1 - 1) 0) + l.2
  .ok ((thatOff : Int) - (idx : Int) + (act : Int))

/-- Emission of one deferred jump (code.rs lines 414-476).  `idx`/`act` are
`actual_indices[i]`/`actual_sizes[i]`.  The `wide!` macro chooses the narrow
form exactly when `u16::try_from(off)` succeeds, i.e. `0 ≤ off ≤ 65535`. -/
def emitJump (labels : List (Nat × (Nat × Nat))) (indices : List Nat)
    (idx act : Nat) : Instruction → Except Err (List Nat)
  | .lookupSwitch default table => do
    let d ← resolveLabel labels indices idx act default
    let sorted := List.insertionSort (fun a b : Int × Nat => a.1 ≤ b.1) table
    let entries ← sorted.mapM (fun e => do
      let off ← resolveLabel labels indices idx act e.2
      pure (i32Bytes e.1 ++ i32Bytes off))
    .ok (171 :: (List.replicate (switchPad (idx - act)) 0 ++
      i32Bytes d ++ u32Bytes table.length ++ entries.flatten))
  | .tableSwitch default low offsets => do
    let d ← resolveLabel labels indices idx act default
    let offs ← offsets.mapM (fun t => resolveLabel labels indices idx act t)
    .ok (170 :: (List.replicate (switchPad (idx - act)) 0 ++
      i32Bytes d ++ i32Bytes low ++ i32Bytes (low + (offsets.length - 1 : Nat)) ++
      (offs.map i32Bytes).flatten))
  | .jsr target => do
    let off ← resolveLabel labels indices idx act target
    if 0 ≤ off ∧ off ≤ 65535 then .ok (168 :: u16Bytes off.toNat)
    else .ok (201 :: i32Bytes off)
  | .jump c target => do
    let off ← resolveLabel labels indices idx act target
    if c = .always then
      if 0 ≤ off ∧ off ≤ 65535 then .ok (167 :: u16Bytes off.toNat)
      else .ok (200 :: i32Bytes off)
    else
      if 0 ≤ off ∧ off ≤ 65535 then .ok (c.opcode :: u16Bytes off.toNat)
      else .ok (c.invert.opcode :: (i32Bytes 5 ++ 200 :: i32Bytes off))
  | _ => .ok []

/-- The emission loop (code.rs lines 384-478): after segment 0, each deferred
jump is written followed by its trailing segment.  The final catch-all arm is
unreachable: `writeCode` always passes lists of matching lengths. -/
def emitLoop (labels : List (Nat × (Nat × Nat))) (indices : List Nat) :
    List Instruction → List (List Nat) → List Nat → List Nat →
    Except Err (List Nat)
  | [], _, _, _ => .ok []
  | j :: js, bytes :: bufs, idx :: idxs, act :: acts => do
    let jb ← emitJump labels indices idx act j
    let rest ← emitLoop labels indices js bufs idxs acts
    .ok (jb ++ bytes ++ rest)
  | _ :: _, _, _, _ => .error (.invalid "internal" "mismatched emission state")

/-! ## Code data model (code.rs lines 40-47 and `mod structure`) -/

instance PResult.instMonad : Monad PResult where
  pure := PResult.ok
  bind := fun r f =>
    match r with
    | .ok a => f a
    | .error e => .error e
    | .panic => .panic

/-- `Catch` (spec §3; the struct itself is in `mod structure`, its use in
code.rs lines 144-149): labels plus an optional caught class name. -/
structure Catch where
  start : Nat
  end_ : Nat
  handler : Nat
  catchTy : Option String
deriving DecidableEq

/-- Modelled from the spec: high-level `LocalVariable` (spec §3
`{start, end, name, descriptor?, signature?, index}`; built in code.rs lines
186-218 and consumed in lines 550-576). -/
structure LocalVar where
  start : Nat
  end_ : Nat
  name : String
  descriptor : Option String
  signature : Option String
  index : Nat
deriving DecidableEq

/-- High-level `CodeAttribute` (subset; the type-annotation variants are
omitted, they are carried through both directions unchanged). -/
inductive CodeAttribute : Type where
  | localVariables (l : List LocalVar)
  | raw (name : String) (data : List Nat)
deriving DecidableEq

/-- `Code` (code.rs lines 40-47). -/
structure Code where
  maxStack : Nat
  maxLocals : Nat
  code : List Instruction
  catches : List Catch
  attrs : List CodeAttribute
deriving DecidableEq

/-- Wire-level `LocalVariableTable` entry (`LocalVar` of `CodeAttr`, used in
code.rs lines 178-197 and 557-563). -/
structure LocalVarEntry where
  start : Nat
  len : Nat
  name : String
  descriptor : String
  index : Nat
deriving DecidableEq

/-- Wire-level `LocalVariableTypeTable` entry (`LocalVarType`). -/
structure LocalVarTypeEntry where
  start : Nat
  len : Nat
  name : String
  signature : String
  index : Nat
deriving DecidableEq

/-- Wire-level `CodeAttr` (subset).  The byte parsing/serialization of these
attributes lives outside the source tree, so the model keeps them structured:
this is the seam between the codec logic of code.rs (embedded faithfully) and
the per-attribute layout (not embedded).  `stackMapTable` content is ignored
by the read path (code.rs line 223), so only its tag is kept. -/
inductive CodeAttr : Type where
  | lineNumberTable (entries : List (Nat × Nat))
  | localVariableTable (entries : List LocalVarEntry)
  | localVariableTypeTable (entries : List LocalVarTypeEntry)
  | stackMapTable
  | raw (name : String) (data : List Nat)
deriving DecidableEq

/-- The structural form of a written Code attribute: everything `write_to`
puts after `max_stack`/`max_locals`, with catches and attributes kept at the
post-parse level (the catch class is kept as its name: constant-pool index
renumbering is outside the byte seam). -/
structure CodeInput where
  maxStack : Nat
  maxLocals : Nat
  codeBytes : List Nat
  catches : List (Nat × Nat × Nat × Option String)
  attrs : List CodeAttr
deriving DecidableEq

/-- A written Code attribute plus the `code_length` value the writer declared
(code.rs lines 382-383).  If `declaredLen` differs from
`out.codeBytes.length`, the emitted stream is corrupt: a reader consumes
`declaredLen` bytes of code and misparses the rest. -/
structure WrittenCode where
  declaredLen : Nat
  out : CodeInput
deriving DecidableEq

/-- The writer `Labeler::label` (code.rs lines 498-505): panics (`unwrap`) on
an unrecorded label, otherwise resolves through `actual_indices` with `u16`
arithmetic. -/
def labelerLabel (labels : List (Nat × (Nat × Nat))) (indices : List Nat)
    (l : Nat) : PResult Nat :=
  match alookup labels l with
  | none => .panic
  | some bi =>
    .ok (((if bi.1 = 0 then 0 else indices.getD (bi.1 - 1) 0) + bi.2) % 65536)

/-- The catch-emission loop (code.rs lines 522-538). -/
def writeCatches (lbl : Nat → PResult Nat) :
    List Catch → PResult (List (Nat × Nat × Nat × Option String))
  | [] => .ok []
  | c :: rest => do
    let s ← lbl c.start
    let e ← lbl c.end_
    let h ← lbl c.handler
    let others ← writeCatches lbl rest
    .ok ((s, e, h, c.catchTy) :: others)

/-- The split loop of `CodeAttribute::LocalVariables` writing (code.rs lines
551-576): a ``LocalVar`` with a descriptor yields a `LocalVariableTable`
entry, one with a signature yields a `LocalVariableTypeTable` entry.
`len` is `u16` subtraction of the resolved labels. -/
def splitLocalVars (lbl : Nat → PResult Nat) :
    List LocalVar → PResult (List LocalVarEntry × List LocalVarTypeEntry)
  | [] => .ok ([], [])
  | lc :: rest => do
    let varE : Option LocalVarEntry ←
      match lc.descriptor with
      | some desc => do
        let s ← lbl lc.start
        let e ← lbl lc.end_
        pure (some { start := s, len := (e + 65536 - s) % 65536,
                     name := lc.name, descriptor := desc, index := lc.index })
      | none => pure none
    let tyE : Option LocalVarTypeEntry ←
      match lc.signature with
      | some sig => do
        let s ← lbl lc.start
        let e ← lbl lc.end_
        pure (some { start := s, len := (e + 65536 - s) % 65536,
                     name := lc.name, signature := sig, index := lc.index })
      | none => pure none
    let rest2 ← splitLocalVars lbl rest
    .ok (varE.toList ++ rest2.1, tyE.toList ++ rest2.2)

/-- Writing a `CodeAttribute::LocalVariables` list (code.rs lines 550-592):
the `(ty.is_empty(), var.is_empty())` match.  Returns the written wire
attributes in order and the `extra_attrs` increment. -/
def writeLocalVariables (lbl : Nat → PResult Nat) (l : List LocalVar) :
    PResult (List CodeAttr × Nat) := do
  let (var, ty) ← splitLocalVars lbl l
  match ty.isEmpty, var.isEmpty with
  | true, true =>
    .error (.invalid "local variables" "no localvariable type or descriptor present")
  | false, true => .ok ([.localVariableTypeTable ty], 0)
  | true, false => .ok ([.localVariableTable var], 0)
  | false, false => .ok ([.localVariableTable var, .localVariableTypeTable ty], 1)

/-- The attribute-writing loop of `write_to` (code.rs lines 539-597).  Note
that the stashed `line_numbers` of pass A are not an input: the source never
reads them again, so no `LineNumberTable` is ever produced. -/
def writeAttrs (lbl : Nat → PResult Nat) :
    List CodeAttribute → PResult (List CodeAttr × Nat)
  | [] => .ok ([], 0)
  | a :: rest => do
    let this2 ←
      match a with
      | .localVariables l => writeLocalVariables lbl l
      | .raw name data => PResult.ok ([CodeAttr.raw name data], 0)
    let others ← writeAttrs lbl rest
    .ok (this2.1 ++ others.1, this2.2 + others.2)

/-- `Code::write_to` (code.rs lines 257-601), composed from the passes.  The
result records the declared `code_length` (line 382) next to the bytes
actually emitted. -/
def writeCode (c : Code) : PResult WrittenCode :=
  let st := passA c.code
  let hints := indexHints st.jumps st.buf
  match sizingPass st.labels hints st.jumps st.buf 0 with
  | .error e => .error e
  | .ok (sizes, indices) =>
    let declaredLen := (st.buf.getD st.jumps.length []).length + indices.getLastD 0
    match emitLoop st.labels indices st.jumps st.buf.tail indices sizes with
    | .error e => .error e
    | .ok jb => do
      let cs ← writeCatches (labelerLabel st.labels indices) c.catches
      let r ← writeAttrs (labelerLabel st.labels indices) c.attrs
      .ok { declaredLen
            out := { maxStack := c.maxStack, maxLocals := c.maxLocals,
                     codeBytes := st.buf.headD [] ++ jb,
                     catches := cs, attrs := r.1 } }

/-! ## Code read path (code.rs lines 50-255) -/

/-- The reader `Labeler::get_label` (code.rs lines 77-85): reuse the label of a
known offset, otherwise mint a fresh one whose id is the current map size. -/
def getLabelR (lab : List (Nat × Nat)) (off : Nat) : Nat × List (Nat × Nat) :=
  match alookup lab off with
  | some l => (l, lab)
  | none => (lab.length, lab ++ [(off, lab.length)])

/-- Modelled from the spec: the condition decoded from a conditional-branch
opcode (inverse of `JumpCondition.opcode`). -/
def condOfOpcode (b : Nat) : JumpCondition :=
  if b = 153 then .eq
  else if b = 154 then .ne
  else if b = 155 then .lt
  else if b = 156 then .ge
  else if b = 157 then .gt
  else if b = 158 then .le
  else if b = 198 then .isNull
  else if b = 199 then .isNonNull
  else .always

/-- Modelled from the spec: one step of
`Instruction::read_from` + `Conv::convert_direct_instruction` (spec §4.4:
every jump target is a label minted via `get_label(source_pos +
signed_offset)`).  The subset mirrors the write-side instruction subset:
`nop`, `return`, `goto` and the conditional branches.  Returns the decoded
instruction, the number of operand bytes consumed and the grown labeler. -/
def decodeInsn (lab : List (Nat × Nat)) (pos : Nat) (b : Nat)
    (rest : List Nat) : Except Err (Instruction × Nat × List (Nat × Nat)) :=
  if b = 0 then .ok (.nop, 0, lab)
  else if b = 177 then .ok (.return_, 0, lab)
  else if b = 167 ∨ (153 ≤ b ∧ b ≤ 158) ∨ b = 198 ∨ b = 199 then
    match rest with
    | hi :: lo :: _ =>
      let target := Int.toNat ((pos : Int) + i16OfBytes hi lo)
      let (l, lab2) := getLabelR lab target
      .ok (if b = 167 then (.jump .always l, 2, lab2)
           else (.jump (condOfOpcode b) l, 2, lab2))
    | _ => .error .truncated
  else .error (.invalid "opcode" (toString b))

/-- The disassembly loop (code.rs lines 108-126): walk the code buffer,
recording `pos ↦ instruction index` into `pos2idx` before decoding each
opcode; after the loop the code length is also mapped (line 126). -/
def disasm : List Nat → Nat → List (Nat × Nat) → List Instruction →
    List (Nat × Nat) →
    Except Err (List Instruction × List (Nat × Nat) × List (Nat × Nat))
  | [], pos, lab, insns, p2i => .ok (insns, p2i ++ [(pos, insns.length)], lab)
  | b :: rest, pos, lab, insns, p2i =>
    match decodeInsn lab pos b rest with
    | .error e => .error e
    | .ok (insn, k, lab2) =>
      disasm (rest.drop k) (pos + 1 + k) lab2 (insns ++ [insn])
        (p2i ++ [(pos, insns.length)])
termination_by bytes => bytes.length
decreasing_by simp [List.length_drop]; omega

/-- The exception-table read loop (code.rs lines 130-151): mint labels at the
start, end and handler offsets of each entry. -/
def readCatches (lab : List (Nat × Nat)) :
    List (Nat × Nat × Nat × Option String) → List Catch × List (Nat × Nat)
  | [] => ([], lab)
  | (s, e, h, ty) :: rest =>
    let (l1, lab1) := getLabelR lab s
    let (l2, lab2) := getLabelR lab1 e
    let (l3, lab3) := getLabelR lab2 h
    let r := readCatches lab3 rest
    ({ start := l1, end_ := l2, handler := l3, catchTy := ty } :: r.1, r.2)

/-- `BTreeMap<usize, Vec<Instruction>>` as a key-sorted association list, with
a generic insert-or-modify. -/
def btPut (m : List (Nat × List Instruction)) (k : Nat)
    (f : List Instruction → List Instruction) : List (Nat × List Instruction) :=
  match m with
  | [] => [(k, f [])]
  | (k1, v1) :: rest =>
    if k < k1 then (k, f []) :: (k1, v1) :: rest
    else if k = k1 then (k1, f v1) :: rest
    else (k1, v1) :: btPut rest k f

/-- `LineNumberTable` processing (code.rs lines 172-176):
`to_insert.insert(pos2idx[&off], vec![LineNumber(line)])` — `BTreeMap::insert`
replaces, and the unchecked `pos2idx[..]` indexing panics on an unknown
offset. -/
def insertLineNumbers (p2i : List (Nat × Nat))
    (ti : List (Nat × List Instruction)) :
    List (Nat × Nat) → PResult (List (Nat × List Instruction))
  | [] => .ok ti
  | (off, line) :: rest =>
    match alookup p2i off with
    | none => .panic
    | some k =>
      insertLineNumbers p2i (btPut ti k (fun _ => [.lineNumber line])) rest

/-- The key of the local-variable merge map (code.rs lines 167-168):
`(start_label, end_label, slot_index, name)`. -/
abbrev LocalVarKey := Nat × Nat × Nat × String

/-- `LocalVariableTable` processing (code.rs lines 177-199): mint labels at
`start` and `start + len`, then merge into the map, filling `descriptor`. -/
def mergeLocalVarTable (lab : List (Nat × Nat))
    (lv : List (LocalVarKey × LocalVar)) :
    List LocalVarEntry → List (LocalVarKey × LocalVar) × List (Nat × Nat)
  | [] => (lv, lab)
  | l :: rest =>
    let (s, lab1) := getLabelR lab l.start
    let (e, lab2) := getLabelR lab1 (l.start + l.len)
    let key : LocalVarKey := (s, e, l.index, l.name)
    let lv2 :=
      match alookup lv key with
      | some old => aInsert lv key { old with descriptor := some l.descriptor }
      | none => lv ++ [(key,
          { start := s, end_ := e, name := l.name,
            descriptor := some l.descriptor, signature := none,
            index := l.index })]
    mergeLocalVarTable lab2 lv2 rest

/-- `LocalVariableTypeTable` processing (code.rs lines 200-221): symmetric,
filling `signature`. -/
def mergeLocalVarTypeTable (lab : List (Nat × Nat))
    (lv : List (LocalVarKey × LocalVar)) :
    List LocalVarTypeEntry → List (LocalVarKey × LocalVar) × List (Nat × Nat)
  | [] => (lv, lab)
  | l :: rest =>
    let (s, lab1) := getLabelR lab l.start
    let (e, lab2) := getLabelR lab1 (l.start + l.len)
    let key : LocalVarKey := (s, e, l.index, l.name)
    let lv2 :=
      match alookup lv key with
      | some old => aInsert lv key { old with signature := some l.signature }
      | none => lv ++ [(key,
          { start := s, end_ := e, name := l.name,
            descriptor := none, signature := some l.signature,
            index := l.index })]
    mergeLocalVarTypeTable lab2 lv2 rest

/-- The attribute read loop (code.rs lines 170-232) over the structured
attribute seam: line numbers are queued for insertion, the two local-variable
tables are merged, `StackMapTable` is ignored, unknown attributes are kept. -/
def processAttrs (p2i : List (Nat × Nat)) :
    List CodeAttr → List (Nat × Nat) → List (Nat × List Instruction) →
    List (LocalVarKey × LocalVar) → List CodeAttribute →
    PResult (List (Nat × Nat) × List (Nat × List Instruction) ×
      List (LocalVarKey × LocalVar) × List CodeAttribute)
  | [], lab, ti, lv, attrs => .ok (lab, ti, lv, attrs)
  | a :: rest, lab, ti, lv, attrs =>
    match a with
    | .lineNumberTable ln =>
      match insertLineNumbers p2i ti ln with
      | .ok ti2 => processAttrs p2i rest lab ti2 lv attrs
      | .error e => .error e
      | .panic => .panic
    | .localVariableTable es =>
      let r := mergeLocalVarTable lab lv es
      processAttrs p2i rest r.2 ti r.1 attrs
    | .localVariableTypeTable es =>
      let r := mergeLocalVarTypeTable lab lv es
      processAttrs p2i rest r.2 ti r.1 attrs
    | .stackMapTable => processAttrs p2i rest lab ti lv attrs
    | .raw name data =>
      processAttrs p2i rest lab ti lv (attrs ++ [.raw name data])

/-- The label-insertion loop (code.rs lines 240-242): for each minted
`(offset, label)`, push a `Label` pseudo-instruction into the bucket at
`pos2idx[&offset]` — unchecked indexing again, hence the panic case. -/
def insertLabels (p2i : List (Nat × Nat))
    (ti : List (Nat × List Instruction)) :
    List (Nat × Nat) → PResult (List (Nat × List Instruction))
  | [] => .ok ti
  | (off, l) :: rest =>
    match alookup p2i off with
    | none => .panic
    | some k => insertLabels p2i (btPut ti k (fun v => v ++ [.label l])) rest

/-- `Vec::insert` (shift-right insertion at an index).  Rust panics when the
index exceeds the length; in this flow every index comes from `pos2idx`, whose
values never exceed the instruction count, so the out-of-range arm (append)
is unreachable. -/
def insAt {α : Type} : Nat → α → List α → List α
  | 0, a, l => a :: l
  | _ + 1, a, [] => [a]
  | n + 1, a, b :: l => b :: insAt n a l

/-- The final insertion loop (code.rs lines 243-247): walk `to_insert` in
descending key order and `Vec::insert` each queued pseudo-instruction at its
index. -/
def applyInserts (ti : List (Nat × List Instruction))
    (insns : List Instruction) : List Instruction :=
  ti.reverse.foldl
    (fun acc kv => kv.2.foldl (fun a i => insAt kv.1 i a) acc) insns

/-- Intermediate values of a successful read, exposed for the statements about
minted labels: the plain disassembled instructions, the `pos2idx` map, the
final labeler, the final `to_insert` buckets and the resulting `Code`. -/
structure ReadTrace where
  insns : List Instruction
  p2i : List (Nat × Nat)
  lab : List (Nat × Nat)
  toIns : List (Nat × List Instruction)
  result : Code
deriving DecidableEq

/-- `Code::read_from` (code.rs lines 50-255) over the structured seam,
returning the trace.  Stages in source order: disassemble, read catches,
process attributes (appending the merged local variables when non-empty,
lines 233-237), queue the labels, insert descending. -/
def readCodeAux (inp : CodeInput) : PResult ReadTrace :=
  match disasm inp.codeBytes 0 [] [] [] with
  | .error e => .error e
  | .ok (insns, p2i, lab0) =>
    let rc := readCatches lab0 inp.catches
    match processAttrs p2i inp.attrs rc.2 [] [] [] with
    | .error e => .error e
    | .panic => .panic
    | .ok (lab2, ti, lv, attrs0) =>
      let attrs := if lv.isEmpty then attrs0
        else attrs0 ++ [.localVariables (lv.map Prod.snd)]
      match insertLabels p2i ti lab2 with
      | .error e => .error e
      | .panic => .panic
      | .ok ti2 =>
        .ok { insns, p2i, lab := lab2, toIns := ti2,
              result := { maxStack := inp.maxStack, maxLocals := inp.maxLocals,
                          code := applyInserts ti2 insns,
                          catches := rc.1, attrs } }

/-- `Code::read_from`, result only. -/
def readCode (inp : CodeInput) : PResult Code :=
  match readCodeAux inp with
  | .ok t => .ok t.result
  | .error e => .error e
  | .panic => .panic

/-! ## Auxiliary definitions for the statements -/

/-- Whether an error value is the reserved-frame-tag error
(`Error::Invalid("tag (is reserved for future use)", ..)`, code.rs line 650). -/
def isReservedErr : Err → Prop
  | .invalid c _ => c = "tag (is reserved for future use)"
  | .truncated => False

/-- Whether a result is the reserved-frame-tag error. -/
def isReservedTagError {α : Type} : Except Err α → Prop
  | .error e => isReservedErr e
  | .ok _ => False

/-- Spec-side predicate: a relative branch offset outside the signed 16-bit
range (the condition the spec says selects the wide encoding). -/
def outsideSigned16 (r : Int) : Prop := r < -32768 ∨ 32767 < r

/-- Labels referenced by an instruction (jump target, switch targets). -/
def Instruction.refLabels : Instruction → List Nat
  | .jump _ t => [t]
  | .jsr t => [t]
  | .tableSwitch d _ offs => d :: offs
  | .lookupSwitch d tbl => d :: tbl.map Prod.snd
  | _ => []

/-- Labels referenced by a catch entry. -/
def Catch.refLabels (c : Catch) : List Nat := [c.start, c.end_, c.handler]

/-- All queued pseudo-instructions of a `to_insert` map. -/
def allVals (m : List (Nat × List Instruction)) : List Instruction :=
  (m.map Prod.snd).flatten

/-- Spec-side characterization of the final insertion loop: before the
original instruction at index `k`, the bucket queued at `k` appears (reversed,
because repeated `Vec::insert` at a fixed index reverses the bucket). -/
def interleaveSpec : List (Nat × List Instruction) → List Instruction →
    List Instruction
  | [], orig => orig
  | (k, v) :: m, orig =>
    orig.take k ++ v.reverse ++
      interleaveSpec (m.map (fun e => (e.1 - k, e.2))) (orig.drop k)
termination_by m _ => m.length
decreasing_by simp

/-- Invariant of the read-side labeler: minted ids are `0, 1, 2, …` in
insertion order and each byte offset is minted at most once. -/
def LabInv (lab : List (Nat × Nat)) : Prop :=
  lab.map Prod.snd = List.range lab.length ∧ (lab.map Prod.fst).Nodup

/-- A `Code` with a `LineNumber` pseudo-instruction (spec §8 scenario 1 plus a
line number): input of the round-trip and line-number claims. -/
def c1ex : Code :=
  { maxStack := 0, maxLocals := 0, code := [.lineNumber 7, .return_],
    catches := [], attrs := [] }

/-- A backward conditional jump with relative offset `-1`: `Label 0`,
`Return`, `Jump(Eq, 0)`; the jump opcode sits at byte offset 1 and targets
byte offset 0. -/
def c2ex : Code :=
  { maxStack := 0, maxLocals := 0, code := [.label 0, .return_, .jump .eq 0],
    catches := [], attrs := [] }

/-- A `tableswitch` whose opcode sits at byte offset 0. -/
def c5ex : Code :=
  { maxStack := 0, maxLocals := 0, code := [.tableSwitch 0 0 [0], .label 0],
    catches := [], attrs := [] }

/-- A local-variable list with one slot carrying a descriptor and one slot
carrying neither a descriptor nor a signature. -/
def c4list : List LocalVar :=
  [{ start := 0, end_ := 0, name := "x", descriptor := some "I",
     signature := none, index := 0 },
   { start := 0, end_ := 0, name := "y", descriptor := none,
     signature := none, index := 1 }]

/-- Four code bytes: `goto +2` (a branch into the middle of the `goto`
instruction itself) followed by `return`. -/
def c10inp : CodeInput :=
  { maxStack := 0, maxLocals := 0, codeBytes := [167, 0, 2, 177],
    catches := [], attrs := [] }

/-- Four code bytes: `goto +3` (targeting the `return` at byte offset 3)
followed by `return`. -/
def c8inp : CodeInput :=
  { maxStack := 0, maxLocals := 0, codeBytes := [167, 0, 3, 177],
    catches := [], attrs := [] }

/-! ## Helper lemmas -/

theorem alookup_eq_none_forall {α β : Type} [DecidableEq α] :
    ∀ {l : List (α × β)} {a : α}, alookup l a = none → ∀ b, (a, b) ∉ l := by
  intro l
  induction l with
  | nil => intro a _ b hb; simp at hb
  | cons hd tl ih =>
    intro a h b hb
    obtain ⟨k, v⟩ := hd
    by_cases hak : a = k
    · simp [alookup, hak] at h
    · simp [alookup, hak] at h
      rcases List.mem_cons.mp hb with h1 | h1
      · exact hak (congrArg Prod.fst h1)
      · exact ih h b h1

theorem alookup_mem {α β : Type} [DecidableEq α] :
    ∀ {l : List (α × β)} {a : α} {b : β}, alookup l a = some b → (a, b) ∈ l := by
  intro l
  induction l with
  | nil => intro a b h; simp [alookup] at h
  | cons hd tl ih =>
    intro a b h
    obtain ⟨k, v⟩ := hd
    by_cases hak : a = k
    · subst hak
      simp [alookup] at h
      subst h
      exact List.mem_cons_self _ _
    · simp [alookup, hak] at h
      exact List.mem_cons_of_mem _ (ih h)

theorem alookup_of_mem_nodup {α β : Type} [DecidableEq α] :
    ∀ {l : List (α × β)} {a : α} {b : β},
      (l.map Prod.fst).Nodup → (a, b) ∈ l → alookup l a = some b := by
  intro l
  induction l with
  | nil => intro a b _ hm; simp at hm
  | cons hd tl ih =>
    intro a b hn hm
    obtain ⟨k, v⟩ := hd
    simp only [List.map_cons, List.nodup_cons] at hn
    rcases List.mem_cons.mp hm with h1 | h1
    · obtain ⟨h1a, h1b⟩ := Prod.mk.injEq .. ▸ h1
      injection h1 with h1a h1b
      subst h1a; subst h1b
      simp [alookup]
    · have hak : a ≠ k := by
        intro he
        subst he
        exact hn.1 (List.mem_map.mpr ⟨(a, b), h1, rfl⟩)
      simp [alookup, hak]
      exact ih hn.2 h1

/-- C7: for every writer-pool state and every entry, a second `insert_raw` of
the same entry (bitwise, so also for NaN `Float`/`Double` patterns) returns
the same index and leaves the pool unchanged; a not-yet-present entry gets the
current `len`, `len` advances by the entry size (1 narrow, 2 wide, as a `u16`),
and all previously recorded indices survive unchanged. -/
theorem insert_raw_dedup_and_fresh (cp : VecCp) (e : RawConstantEntry) :
    ((cp.insertRaw e).2.insertRaw e).1 = (cp.insertRaw e).1 ∧
    ((cp.insertRaw e).2.insertRaw e).2 = (cp.insertRaw e).2 ∧
    (alookup cp.prev_entries e = none →
      (cp.insertRaw e).1 = cp.len ∧
      (cp.insertRaw e).2.len = (cp.len + e.size) % 65536 ∧
      (cp.len + e.size < 65536 → (cp.insertRaw e).2.len = cp.len + e.size) ∧
      ∀ e2 i, alookup cp.prev_entries e2 = some i →
        alookup (cp.insertRaw e).2.prev_entries e2 = some i) := by
  cases h : alookup cp.prev_entries e with
  | some v =>
    refine ⟨?_, ?_, ?_⟩
    · simp [VecCp.insertRaw, h]
    · simp [VecCp.insertRaw, h]
    · intro hnone; exact absurd hnone (by simp)
  | none =>
    have hfst : (cp.insertRaw e).1 = cp.len := by simp [VecCp.insertRaw, h]
    have hsnd : (cp.insertRaw e).2 =
        { cp with
          len := (cp.len + e.size) % 65536
          entries := cp.entries ++ [e]
          prev_entries := (e, cp.len) :: cp.prev_entries } := by
      simp [VecCp.insertRaw, h]
    refine ⟨?_, ?_, fun _ => ⟨hfst, ?_, ?_, ?_⟩⟩
    · rw [hsnd, hfst]; simp [VecCp.insertRaw, alookup]
    · rw [hsnd]; simp [VecCp.insertRaw, alookup]
    · rw [hsnd]
    · intro hlt; rw [hsnd]; exact Nat.mod_eq_of_lt hlt
    · intro e2 i h2
      rw [hsnd]
      have hne : e2 ≠ e := by
        intro he; subst he; rw [h2] at h; exact absurd h (by simp)
      simpa [alookup, hne] using h2

/-- Witness for C7 at a concrete pool and a NaN double bit pattern
(`0x7FF8000000000000`): inserting into the empty pool returns index 1 and
advances `len` to 3; re-inserting returns 1 again and leaves the pool as it
was. -/
theorem insert_raw_dedup_and_fresh_witness :
    (VecCp.new.insertRaw (.double 9221120237041090560)).1 = 1 ∧
    (VecCp.new.insertRaw (.double 9221120237041090560)).2.len = 3 ∧
    ((VecCp.new.insertRaw (.double 9221120237041090560)).2.insertRaw
        (.double 9221120237041090560)).1 = 1 ∧
    ((VecCp.new.insertRaw (.double 9221120237041090560)).2.insertRaw
        (.double 9221120237041090560)).2 =
      (VecCp.new.insertRaw (.double 9221120237041090560)).2 := by
  have h := insert_raw_dedup_and_fresh VecCp.new (.double 9221120237041090560)
  have h3 := h.2.2 rfl
  refine ⟨by simpa using h3.1, ?_, by simpa using h.1.trans h3.1, h.2.1⟩
  have := h3.2.2.1 (by decide)
  simpa using this

theorem bootstrapFill_fills :
    ∀ (bs : List BootstrapMethod) (refs : List (Nat × List Nat)) (i j : Nat)
      (hs : List Nat) (h : Nat) (b : BootstrapMethod),
      (refs.map Prod.fst).Nodup → (j, hs) ∈ refs → h ∈ hs →
      i ≤ j → bs[j - i]? = some b →
      (h, b) ∈ (bootstrapFill refs i bs).1 := by
  intro bs
  induction bs with
  | nil => intro refs i j hs h b _ _ _ _ hb; simp at hb
  | cons b0 bs ih =>
    intro refs i j hs h b hn hm hh hij hb
    by_cases hji : j = i
    · subst hji
      have hl : alookup refs j = some hs := alookup_of_mem_nodup hn hm
      simp only [Nat.sub_self, List.getElem?_cons_zero, Option.some.injEq] at hb
      subst hb
      simp only [bootstrapFill, hl]
      exact List.mem_append_left _ (List.mem_map.mpr ⟨h, hh, rfl⟩)
    · have hij2 : i + 1 ≤ j := by omega
      have hb2 : bs[j - (i + 1)]? = some b := by
        have : j - i = (j - (i + 1)) + 1 := by omega
        rw [this] at hb
        simpa using hb
      cases hl : alookup refs i with
      | some hs0 =>
        simp only [bootstrapFill, hl]
        refine List.mem_append_right _ ?_
        have hmem2 : (j, hs) ∈ refs.filter (fun e => decide (e.1 ≠ i)) :=
          List.mem_filter.mpr ⟨hm, by simpa using hji⟩
        have hn2 : ((refs.filter (fun e => decide (e.1 ≠ i))).map Prod.fst).Nodup := by
          refine List.Nodup.sublist ?_ hn
          exact List.Sublist.map _ (List.filter_sublist _)
        exact ih _ (i + 1) j hs h b hn2 hmem2 hh hij2 hb2
      | none =>
        simp only [bootstrapFill, hl]
        exact ih _ (i + 1) j hs h b hn hm hh hij2 hb2

theorem bootstrapFill_rem :
    ∀ (bs : List BootstrapMethod) (refs : List (Nat × List Nat)) (i : Nat),
      (bootstrapFill refs i bs).2 =
        refs.filter (fun e => !(decide (i ≤ e.1) && decide (e.1 < i + bs.length))) := by
  intro bs
  induction bs with
  | nil =>
    intro refs i
    simp only [bootstrapFill]
    refine (List.filter_eq_self.mpr ?_).symm
    intro e _
    simp
    omega
  | cons b0 bs ih =>
    intro refs i
    cases hl : alookup refs i with
    | some hs0 =>
      simp only [bootstrapFill, hl, ih]
      rw [List.filter_filter]
      refine List.filter_congr ?_
      intro e _
      simp only [List.length_cons]
      rw [Bool.eq_iff_iff]
      simp only [Bool.and_eq_true, Bool.not_eq_true', Bool.or_eq_true, Bool.not_and,
        decide_eq_true_eq, decide_eq_false_iff_not, ne_eq, decide_not, Bool.not_not]
      omega
    | none =>
      simp only [bootstrapFill, hl, ih]
      refine List.filter_congr ?_
      intro e he
      have hne : e.1 ≠ i := by
        intro hee
        have := alookup_eq_none_forall hl e.2
        rw [← hee] at this
        exact this (by simpa using he)
      simp only [List.length_cons]
      congr 1
      rw [Bool.eq_iff_iff]
      simp only [Bool.and_eq_true, decide_eq_true_eq]
      omega

/-- C6: after `bootstrap_methods(bsms)`, every holder registered under an
index that lies within `bsms` is filled with that bootstrap method, and the
call returns the unresolved-bootstrap-reference error (rather than `Ok`)
exactly when some registered, non-empty holder list has an index with no
corresponding bootstrap method. -/
theorem bootstrap_methods_fills_and_errors (refs : List (Nat × List Nat))
    (bsms : List BootstrapMethod) (hk : (refs.map Prod.fst).Nodup) :
    (∀ j hs h b, (j, hs) ∈ refs → h ∈ hs → bsms[j]? = some b →
      (h, b) ∈ (bootstrapMethods refs bsms).1) ∧
    ((bootstrapMethods refs bsms).2 = .ok () ↔
      ∀ j hs, (j, hs) ∈ refs → hs ≠ [] → j < bsms.length) := by
  constructor
  · intro j hs h b hm hh hb
    simpa [bootstrapMethods] using
      bootstrapFill_fills bsms refs 0 j hs h b hk hm hh (Nat.zero_le j)
        (by simpa using hb)
  · have hrem := bootstrapFill_rem bsms refs 0
    constructor
    · intro hok j hs hm hne
      by_contra hge
      have hkeep : (j, hs) ∈ (bootstrapFill refs 0 bsms).2 := by
        rw [hrem]
        refine List.mem_filter.mpr ⟨hm, ?_⟩
        simp
        omega
      have hany : (bootstrapFill refs 0 bsms).2.any (fun e => !e.2.isEmpty) = true := by
        refine List.any_eq_true.mpr ⟨(j, hs), hkeep, ?_⟩
        simpa using hne
      simp only [bootstrapMethods, hany] at hok
      exact absurd hok (by simp)
    · intro hall
      have hany : (bootstrapFill refs 0 bsms).2.any (fun e => !e.2.isEmpty) = false := by
        rw [List.any_eq_false]
        intro e he
        rw [hrem] at he
        obtain ⟨hmem, hpred⟩ := List.mem_filter.mp he
        simp only [Bool.not_and, Bool.or_eq_true, Bool.not_eq_true', decide_eq_false_iff_not,
          decide_eq_true_eq] at hpred
        by_cases hemp : e.2 = []
        · simp [hemp]
        · have := hall e.1 e.2 hmem hemp
          simp at hpred
          omega
      simp [bootstrapMethods, hany]

/-- Witness for C6: with holders 5 registered at index 0 and 6 at index 2, and
a single bootstrap method, holder 5 is filled with it and the call does not
return `Ok`. -/
theorem bootstrap_methods_fills_and_errors_witness :
    (5, (⟨9, [1]⟩ : BootstrapMethod)) ∈
      (bootstrapMethods [(0, [5]), (2, [6])] [⟨9, [1]⟩]).1 ∧
    (bootstrapMethods [(0, [5]), (2, [6])] [⟨9, [1]⟩]).2 ≠ .ok () := by
  have h := bootstrap_methods_fills_and_errors [(0, [5]), (2, [6])] [⟨9, [1]⟩]
    (by decide)
  refine ⟨h.1 0 [5] 5 ⟨9, [1]⟩ (by simp) (by simp) (by decide), ?_⟩
  intro hok
  have := h.2.mp hok 2 [6] (by simp) (by simp)
  simp at this

theorem readU16_not_reserved (bytes : List Nat) :
    ¬ isReservedTagError (readU16 bytes) := by
  match bytes with
  | [] => simp [readU16, isReservedTagError, isReservedErr, Except.instMonad, Except.bind]
  | [_] => simp [readU16, isReservedTagError, isReservedErr, Except.instMonad, Except.bind]
  | _ :: _ :: _ => simp [readU16, isReservedTagError, isReservedErr, Except.instMonad, Except.bind]

theorem vt_read_not_reserved (cp : CpReadCtx) (bytes : List Nat) :
    ¬ isReservedTagError (VerificationType.readFrom cp bytes) := by
  match bytes with
  | [] => simp [VerificationType.readFrom, readU8, isReservedTagError, isReservedErr, Except.instMonad, Except.bind]
  | b :: r =>
    rcases b with _|_|_|_|_|_|_|_|_|b
    · simp [VerificationType.readFrom, readU8, isReservedTagError, isReservedErr, Except.instMonad, Except.bind]
    · simp [VerificationType.readFrom, readU8, isReservedTagError, isReservedErr, Except.instMonad, Except.bind]
    · simp [VerificationType.readFrom, readU8, isReservedTagError, isReservedErr, Except.instMonad, Except.bind]
    · simp [VerificationType.readFrom, readU8, isReservedTagError, isReservedErr, Except.instMonad, Except.bind]
    · simp [VerificationType.readFrom, readU8, isReservedTagError, isReservedErr, Except.instMonad, Except.bind]
    · simp [VerificationType.readFrom, readU8, isReservedTagError, isReservedErr, Except.instMonad, Except.bind]
    · simp [VerificationType.readFrom, readU8, isReservedTagError, isReservedErr, Except.instMonad, Except.bind]
    · match r with
      | [] => simp [VerificationType.readFrom, readU8, readU16, isReservedTagError, isReservedErr, Except.instMonad, Except.bind]
      | [_] => simp [VerificationType.readFrom, readU8, readU16, isReservedTagError, isReservedErr, Except.instMonad, Except.bind]
      | hi :: lo :: r2 =>
        cases hc : cp.readClass (hi * 256 + lo) with
        | some s =>
          simp [VerificationType.readFrom, readU8, readU16, hc, isReservedTagError, isReservedErr, Except.instMonad, Except.bind]
        | none =>
          simp [VerificationType.readFrom, readU8, readU16, hc, isReservedTagError, isReservedErr, Except.instMonad, Except.bind]
    · match r with
      | [] => simp [VerificationType.readFrom, readU8, readU16, isReservedTagError, isReservedErr, Except.instMonad, Except.bind]
      | [_] => simp [VerificationType.readFrom, readU8, readU16, isReservedTagError, isReservedErr, Except.instMonad, Except.bind]
      | hi :: lo :: r2 =>
        simp [VerificationType.readFrom, readU8, readU16, isReservedTagError, isReservedErr, Except.instMonad, Except.bind]
    · simp [VerificationType.readFrom, readU8, isReservedTagError, isReservedErr, Except.instMonad, Except.bind]

theorem readVTypes_not_reserved (cp : CpReadCtx) :
    ∀ (n : Nat) (bytes : List Nat), ¬ isReservedTagError (readVTypes cp n bytes) := by
  intro n
  induction n with
  | zero =>
    intro bytes
    simp [readVTypes, isReservedTagError, isReservedErr, Except.instMonad, Except.bind]
  | succ n ih =>
    intro bytes
    cases hv : VerificationType.readFrom cp bytes with
    | error e =>
      have h1 := vt_read_not_reserved cp bytes
      rw [hv] at h1
      simpa [readVTypes, hv, Except.instMonad, Except.bind] using h1
    | ok p =>
      obtain ⟨v, r⟩ := p
      cases hr : readVTypes cp n r with
      | error e =>
        have h1 := ih r
        rw [hr] at h1
        simpa [readVTypes, hv, hr, Except.instMonad, Except.bind] using h1
      | ok q =>
        simp [readVTypes, hv, hr, Except.instMonad, Except.bind, isReservedTagError]

theorem bind_not_reserved {α β : Type} (E : Except Err α) (k : α → Except Err β)
    (h1 : ¬ isReservedTagError E) (h2 : ∀ x, ¬ isReservedTagError (k x)) :
    ¬ isReservedTagError (Bind.bind E k) := by
  cases E with
  | error e => simpa [Except.instMonad, Except.bind, isReservedTagError] using h1
  | ok x => simpa [Except.instMonad, Except.bind] using h2 x

/-- C9: on read, the reserved-tag error arises exactly for tags 128–246 (other
tags decode per the frame tag table: implicit `Same` for 0–63, explicit-offset
`Chop` for 248–250 with chop `251 − tag`, explicit `Same` for 251, `Append`
for 252); on write, `Chop` outside 1..=3 and `Append` with more than 3 locals
fail with the invalid-frame errors and every other `RawFrame` writes
successfully. -/
theorem raw_frame_reserved_and_write_validation (cp : CpReadCtx)
    (cpw : CpWriteCtx) (tag : Nat) (rest : List Nat) (htag : tag ≤ 255)
    (f : RawFrame) :
    (isReservedTagError (RawFrame.readFrom cp (tag :: rest)) ↔
      128 ≤ tag ∧ tag ≤ 246) ∧
    (tag ≤ 63 → RawFrame.readFrom cp (tag :: rest) = .ok (.same tag, rest)) ∧
    (∀ hi lo r2, rest = hi :: lo :: r2 →
      (248 ≤ tag → tag ≤ 250 →
        RawFrame.readFrom cp (tag :: rest) =
          .ok (.chop (hi * 256 + lo) (251 - tag), r2)) ∧
      (tag = 251 →
        RawFrame.readFrom cp (tag :: rest) = .ok (.same (hi * 256 + lo), r2)) ∧
      (tag = 252 → ∀ v r3, VerificationType.readFrom cp r2 = .ok (v, r3) →
        RawFrame.readFrom cp (tag :: rest) =
          .ok (.append (hi * 256 + lo) [v], r3))) ∧
    ((∃ bs, RawFrame.writeTo cpw f = .ok bs) ↔
      (∀ off n, f = .chop off n → 1 ≤ n ∧ n ≤ 3) ∧
      (∀ off ls, f = .append off ls → ls.length ≤ 3)) := by
  refine ⟨?_, ?_, ?_, ?_⟩
  · by_cases h128 : 128 ≤ tag ∧ tag ≤ 246
    · have h63 : ¬ tag ≤ 63 := by omega
      have h127 : ¬ tag ≤ 127 := by omega
      have h246 : tag ≤ 246 := h128.2
      refine ⟨fun _ => h128, fun _ => ?_⟩
      simp [RawFrame.readFrom, readU8, Except.instMonad, Except.bind, h63, h127,
        h246, isReservedTagError, isReservedErr, Except.instMonad, Except.bind]
    · have hnr : ¬ isReservedTagError (RawFrame.readFrom cp (tag :: rest)) := by
        simp only [RawFrame.readFrom, readU8]
        by_cases h63 : tag ≤ 63
        · simp [h63, Except.instMonad, Except.bind, isReservedTagError,
            Except.instMonad, Except.bind]
        · by_cases h127 : tag ≤ 127
          · simp only [Except.instMonad, Except.bind, h63, h127, if_false,
              if_true, ite_true, ite_false, if_neg, if_pos]
            refine bind_not_reserved _ _ (vt_read_not_reserved cp rest) ?_
            intro x
            obtain ⟨v, r2⟩ := x
            simp [isReservedTagError, isReservedErr, Except.instMonad, Except.bind]
          · have h246 : ¬ tag ≤ 246 := by omega
            by_cases h247 : tag = 247
            · simp only [Except.instMonad, Except.bind, h63, h127, h246, h247,
                if_false, ite_false, ite_true, if_neg, if_pos, if_true]
              refine bind_not_reserved _ _ (readU16_not_reserved rest) ?_
              intro x
              obtain ⟨off, r2⟩ := x
              refine bind_not_reserved _ _ (vt_read_not_reserved cp r2) ?_
              intro y
              obtain ⟨v, r3⟩ := y
              simp [isReservedTagError, isReservedErr, Except.instMonad, Except.bind]
            · by_cases h250 : tag ≤ 250
              · simp only [Except.instMonad, Except.bind, h63, h127, h246, h247,
                  h250, if_false, ite_false, ite_true, if_neg, if_pos, if_true]
                refine bind_not_reserved _ _ (readU16_not_reserved rest) ?_
                intro x
                obtain ⟨off, r2⟩ := x
                simp [isReservedTagError, isReservedErr, Except.instMonad, Except.bind]
              · by_cases h251 : tag = 251
                · simp only [Except.instMonad, Except.bind, h63, h127, h246,
                    h247, h250, h251, if_false, ite_false, ite_true, if_neg,
                    if_pos, if_true]
                  refine bind_not_reserved _ _ (readU16_not_reserved rest) ?_
                  intro x
                  obtain ⟨off, r2⟩ := x
                  simp [isReservedTagError, isReservedErr, Except.instMonad, Except.bind]
                · by_cases h254 : tag ≤ 254
                  · simp only [Except.instMonad, Except.bind, h63, h127, h246,
                      h247, h250, h251, h254, if_false, ite_false, ite_true,
                      if_neg, if_pos, if_true]
                    refine bind_not_reserved _ _ (readU16_not_reserved rest) ?_
                    intro x
                    obtain ⟨off, r2⟩ := x
                    refine bind_not_reserved _ _
                      (readVTypes_not_reserved cp (tag - 251) r2) ?_
                    intro y
                    obtain ⟨vs, r3⟩ := y
                    simp [isReservedTagError, isReservedErr, Except.instMonad, Except.bind]
                  · simp only [Except.instMonad, Except.bind, h63, h127, h246,
                      h247, h250, h251, h254, if_false, ite_false, ite_true,
                      if_neg, if_pos, if_true]
                    refine bind_not_reserved _ _ (readU16_not_reserved rest) ?_
                    intro x
                    obtain ⟨off, r2⟩ := x
                    refine bind_not_reserved _ _ (readU16_not_reserved r2) ?_
                    intro y
                    obtain ⟨nl, r3⟩ := y
                    refine bind_not_reserved _ _
                      (readVTypes_not_reserved cp nl r3) ?_
                    intro z
                    obtain ⟨ls, r4⟩ := z
                    refine bind_not_reserved _ _ (readU16_not_reserved r4) ?_
                    intro w
                    obtain ⟨ns, r5⟩ := w
                    refine bind_not_reserved _ _
                      (readVTypes_not_reserved cp ns r5) ?_
                    intro u
                    obtain ⟨ss, r6⟩ := u
                    simp [isReservedTagError, isReservedErr, Except.instMonad, Except.bind]
      exact ⟨fun h => absurd h hnr, fun h => absurd h h128⟩
  · intro h63
    simp [RawFrame.readFrom, readU8, Except.instMonad, Except.bind, h63]
  · intro hi lo r2 hrest
    subst hrest
    refine ⟨?_, ?_, ?_⟩
    · intro h248 h250
      have h63 : ¬ tag ≤ 63 := by omega
      have h127 : ¬ tag ≤ 127 := by omega
      have h246 : ¬ tag ≤ 246 := by omega
      have h247 : ¬ tag = 247 := by omega
      simp [RawFrame.readFrom, readU8, readU16, Except.instMonad, Except.bind,
        h63, h127, h246, h247, h250]
    · intro h251
      subst h251
      simp [RawFrame.readFrom, readU8, readU16, Except.instMonad, Except.bind]
    · intro h252 v r3 hv
      subst h252
      simp [RawFrame.readFrom, readU8, readU16, readVTypes, hv,
        Except.instMonad, Except.bind]
  · constructor
    · rintro ⟨bs, hbs⟩
      constructor
      · intro off n hf
        subst hf
        by_cases h : 1 ≤ n ∧ n ≤ 3
        · exact h
        · simp [RawFrame.writeTo, h] at hbs
      · intro off ls hf
        subst hf
        by_cases h : ls.length ≤ 3
        · exact h
        · simp [RawFrame.writeTo, h] at hbs
    · rintro ⟨hc, ha⟩
      cases f with
      | same off =>
        by_cases h : off ≤ 63
        · exact ⟨[off], by simp [RawFrame.writeTo, h]⟩
        · exact ⟨251 :: u16Bytes off, by simp [RawFrame.writeTo, h]⟩
      | sameLocalsOneStack off v =>
        by_cases h : off ≤ 63
        · exact ⟨(off + 64) :: v.writeTo cpw, by simp [RawFrame.writeTo, h]⟩
        · exact ⟨247 :: u16Bytes off ++ v.writeTo cpw,
            by simp [RawFrame.writeTo, h]⟩
      | chop off n =>
        have h := hc off n rfl
        exact ⟨(251 - n) :: u16Bytes off, by simp [RawFrame.writeTo, h]⟩
      | append off ls =>
        have h := ha off ls rfl
        exact ⟨(ls.length + 251) :: u16Bytes off ++
          (ls.map (fun v => v.writeTo cpw)).flatten,
          by simp [RawFrame.writeTo, h]⟩
      | full off ls ss =>
        exact ⟨255 :: u16Bytes off ++ u16Bytes ls.length ++
          (ls.map (fun v => v.writeTo cpw)).flatten ++
          u16Bytes ss.length ++ (ss.map (fun v => v.writeTo cpw)).flatten,
          by simp [RawFrame.writeTo]⟩

/-- Witness for C9: tag 130 is rejected as reserved, tag 5 decodes as
`Same(5)`, and `Chop` with chop count 2 writes successfully. -/
theorem raw_frame_reserved_and_write_validation_witness :
    isReservedTagError
      (RawFrame.readFrom ⟨fun _ => none, fun _ => 0⟩ [130]) ∧
    RawFrame.readFrom ⟨fun _ => none, fun _ => 0⟩ [5, 9] = .ok (.same 5, [9]) ∧
    (∃ bs, RawFrame.writeTo ⟨fun _ => 0, fun _ => 0⟩ (.chop 7 2) = .ok bs) := by
  have h1 := raw_frame_reserved_and_write_validation ⟨fun _ => none, fun _ => 0⟩
    ⟨fun _ => 0, fun _ => 0⟩ 130 [] (by decide) (.chop 7 2)
  have h2 := raw_frame_reserved_and_write_validation ⟨fun _ => none, fun _ => 0⟩
    ⟨fun _ => 0, fun _ => 0⟩ 5 [9] (by decide) (.chop 7 2)
  refine ⟨h1.1.mpr (by decide), h2.2.1 (by decide), ?_⟩
  refine h1.2.2.2.mpr ⟨fun off n hf => ?_, fun off ls hf => RawFrame.noConfusion hf⟩
  injection hf with a b
  omega

theorem length_filterMap_countP {α β : Type} (f : α → Option β) :
    ∀ l : List α, (l.filterMap f).length = l.countP (fun x => (f x).isSome) := by
  intro l
  induction l with
  | nil => simp
  | cons a l ih =>
    cases hf : f a with
    | none => simp [List.filterMap_cons, hf, List.countP_cons, ih]
    | some b => simp [List.filterMap_cons, hf, List.countP_cons, ih]

theorem splitLocalVars_eq (lbl : Nat → PResult Nat) (f g : LocalVar → Nat) :
    ∀ l : List LocalVar,
      (∀ lv ∈ l, lbl lv.start = .ok (f lv) ∧ lbl lv.end_ = .ok (g lv)) →
      splitLocalVars lbl l = .ok
        (l.filterMap (fun lv => lv.descriptor.map (fun d =>
          ({ start := f lv, len := (g lv + 65536 - f lv) % 65536,
             name := lv.name, descriptor := d, index := lv.index } :
            LocalVarEntry))),
         l.filterMap (fun lv => lv.signature.map (fun sg =>
          ({ start := f lv, len := (g lv + 65536 - f lv) % 65536,
             name := lv.name, signature := sg, index := lv.index } :
            LocalVarTypeEntry)))) := by
  intro l
  induction l with
  | nil => intro _; simp [splitLocalVars]
  | cons lv rest ih =>
    intro h
    obtain ⟨hs, he⟩ := h lv (List.mem_cons_self _ _)
    have ihh := ih (fun x hx => h x (List.mem_cons_of_mem _ hx))
    cases hd : lv.descriptor with
    | none =>
      cases hg : lv.signature with
      | none =>
        simp [splitLocalVars, hd, hg, hs, he, ihh, List.filterMap_cons,
          PResult.instMonad]
      | some sg =>
        simp [splitLocalVars, hd, hg, hs, he, ihh, List.filterMap_cons,
          PResult.instMonad]
    | some d =>
      cases hg : lv.signature with
      | none =>
        simp [splitLocalVars, hd, hg, hs, he, ihh, List.filterMap_cons,
          PResult.instMonad]
      | some sg =>
        simp [splitLocalVars, hd, hg, hs, he, ihh, List.filterMap_cons,
          PResult.instMonad]

theorem writeLocalVariables_error_iff (lbl : Nat → PResult Nat)
    (l : List LocalVar) (var : List LocalVarEntry)
    (ty : List LocalVarTypeEntry)
    (hsplit : splitLocalVars lbl l = .ok (var, ty)) :
    (writeLocalVariables lbl l =
        .error (.invalid "local variables"
          "no localvariable type or descriptor present") ↔
      ty = [] ∧ var = []) := by
  cases var <;> cases ty <;>
    simp [writeLocalVariables, hsplit, PResult.instMonad]

/-- C4 (amended): each `LocalVar` carrying both a descriptor and a signature
produces exactly one `LocalVariableTable` entry and one
`LocalVariableTypeTable` entry (entry counts equal the counts of
descriptor-carrying and signature-carrying slots), but the
"invalid local variable" error is raised exactly when no slot in the list has
a descriptor and none has a signature — a slot with neither, next to one that
has either, is silently dropped rather than an error. -/
theorem local_vars_split_and_error_iff (lbl : Nat → PResult Nat)
    (f g : LocalVar → Nat) (l : List LocalVar)
    (hl : ∀ lv ∈ l, lbl lv.start = .ok (f lv) ∧ lbl lv.end_ = .ok (g lv)) :
    ∃ var ty, splitLocalVars lbl l = .ok (var, ty) ∧
      var.length = l.countP (fun lv => lv.descriptor.isSome) ∧
      ty.length = l.countP (fun lv => lv.signature.isSome) ∧
      (∀ lv ∈ l, ∀ d sg, lv.descriptor = some d → lv.signature = some sg →
        ({ start := f lv, len := (g lv + 65536 - f lv) % 65536,
           name := lv.name, descriptor := d, index := lv.index } :
          LocalVarEntry) ∈ var ∧
        ({ start := f lv, len := (g lv + 65536 - f lv) % 65536,
           name := lv.name, signature := sg, index := lv.index } :
          LocalVarTypeEntry) ∈ ty) ∧
      (writeLocalVariables lbl l =
          .error (.invalid "local variables"
            "no localvariable type or descriptor present") ↔
        ∀ lv ∈ l, lv.descriptor = none ∧ lv.signature = none) := by
  have hsplit := splitLocalVars_eq lbl f g l hl
  refine ⟨_, _, hsplit, ?_, ?_, ?_, ?_⟩
  · rw [length_filterMap_countP]
    refine List.countP_congr ?_
    intro lv _
    cases lv.descriptor <;> simp
  · rw [length_filterMap_countP]
    refine List.countP_congr ?_
    intro lv _
    cases lv.signature <;> simp
  · intro lv hm d sg hd hg
    exact ⟨List.mem_filterMap.mpr ⟨lv, hm, by simp [hd]⟩,
           List.mem_filterMap.mpr ⟨lv, hm, by simp [hg]⟩⟩
  · rw [writeLocalVariables_error_iff lbl l _ _ hsplit]
    constructor
    · rintro ⟨hB, hA⟩ lv hm
      have h1 := List.filterMap_eq_nil_iff.mp hA lv hm
      have h2 := List.filterMap_eq_nil_iff.mp hB lv hm
      exact ⟨Option.map_eq_none'.mp h1, Option.map_eq_none'.mp h2⟩
    · intro hall
      constructor
      · rw [List.filterMap_eq_nil_iff]
        intro lv hm
        simp [(hall lv hm).2]
      · rw [List.filterMap_eq_nil_iff]
        intro lv hm
        simp [(hall lv hm).1]

/-- Witness for C4 (amended theorem) at a slot with both a descriptor and a
signature. -/
theorem local_vars_split_and_error_iff_witness :
    ∃ var ty,
      splitLocalVars (fun _ => .ok 0)
        [{ start := 0, end_ := 0, name := "x", descriptor := some "I",
           signature := some "TT;", index := 2 }] = .ok (var, ty) ∧
      var.length = 1 ∧ ty.length = 1 ∧
      ({ start := 0, len := 0, name := "x", descriptor := "I", index := 2 } :
        LocalVarEntry) ∈ var ∧
      ({ start := 0, len := 0, name := "x", signature := "TT;", index := 2 } :
        LocalVarTypeEntry) ∈ ty := by
  obtain ⟨var, ty, hsplit, hvl, htl, hboth, herr⟩ :=
    local_vars_split_and_error_iff (fun _ => .ok 0) (fun _ => 0) (fun _ => 0)
      [{ start := 0, end_ := 0, name := "x", descriptor := some "I",
         signature := some "TT;", index := 2 }]
      (fun lv _ => ⟨rfl, rfl⟩)
  have hb := hboth _ (List.mem_cons_self _ _) "I" "TT;" rfl rfl
  exact ⟨var, ty, hsplit, by simpa using hvl, by simpa using htl,
    by simpa using hb.1, by simpa using hb.2⟩

/-- C4 counterexample: a `LocalVar` with neither descriptor nor signature next
to one with a descriptor does not make writing fail — the claimed
"invalid local variable" error is not raised. -/
theorem local_var_missing_both_no_error :
    ({ start := 0, end_ := 0, name := "y", descriptor := none,
       signature := none, index := 1 } : LocalVar) ∈ c4list ∧
    writeLocalVariables (fun _ => .ok 0) c4list =
      .ok ([.localVariableTable
        [{ start := 0, len := 0, name := "x", descriptor := "I",
           index := 0 }]], 0) := by
  constructor
  · simp [c4list]
  · rfl

/-- C5: the claimed padding formula is indeed the one the writer uses
(`3 − ((opcode_offset + 1) mod 4)`), but it does not align the default-offset
field to a multiple of 4: for every opcode offset `p` the field begins at an
offset congruent to 3 (mod 4).  Concretely, a `tableswitch` whose opcode sits
at offset 0 gets 2 padding bytes and its default field begins at offset 3 (the
read path at the same position would skip to offset 4). -/
theorem switch_padding_misaligned :
    (∀ p : Nat, (p + 1 + switchPad p) % 4 = 3) ∧
    switchPad 0 = 3 - ((0 + 1) % 4) ∧
    switchPad 0 = 2 ∧
    ¬ ((1 + switchPad 0) % 4 = 0) ∧
    writeCode c5ex = .ok
      ⟨19, ⟨0, 0, [170, 0, 0, 0, 0, 0, 19, 0, 0, 0, 0, 0, 0, 0, 0, 0, 0, 0,
        19], [], []⟩⟩ ∧
    jumpActualSize (passA c5ex.code).labels
      (indexHints (passA c5ex.code).jumps (passA c5ex.code).buf) 0
      (.tableSwitch 0 0 [0]) = .ok 19 := by
  refine ⟨?_, by decide, by decide, by decide, by decide, by decide⟩
  intro p
  simp only [switchPad]
  omega

theorem writeLocalVariables_no_lnt (lbl : Nat → PResult Nat)
    (l : List LocalVar) (r : List CodeAttr × Nat)
    (h : writeLocalVariables lbl l = .ok r) :
    ∀ e, CodeAttr.lineNumberTable e ∉ r.1 := by
  intro e
  cases hsplit : splitLocalVars lbl l with
  | error e2 => simp [writeLocalVariables, hsplit, PResult.instMonad] at h
  | panic => simp [writeLocalVariables, hsplit, PResult.instMonad] at h
  | ok p =>
    obtain ⟨var, ty⟩ := p
    cases var <;> cases ty <;>
      simp [writeLocalVariables, hsplit, PResult.instMonad] at h <;>
      simp [← h]

theorem writeAttrs_no_lnt (lbl : Nat → PResult Nat) :
    ∀ (attrs : List CodeAttribute) (r : List CodeAttr × Nat),
      writeAttrs lbl attrs = .ok r →
      ∀ e, CodeAttr.lineNumberTable e ∉ r.1 := by
  intro attrs
  induction attrs with
  | nil =>
    intro r h e
    simp [writeAttrs, PResult.instMonad] at h
    simp [← h]
  | cons a rest ih =>
    intro r h e
    cases a with
    | localVariables l =>
      cases hw : writeLocalVariables lbl l with
      | error e2 => simp [writeAttrs, hw, PResult.instMonad] at h
      | panic => simp [writeAttrs, hw, PResult.instMonad] at h
      | ok this2 =>
        cases ha : writeAttrs lbl rest with
        | error e2 => simp [writeAttrs, hw, ha, PResult.instMonad] at h
        | panic => simp [writeAttrs, hw, ha, PResult.instMonad] at h
        | ok others =>
          simp [writeAttrs, hw, ha, PResult.instMonad] at h
          rw [← h]
          intro hmem
          rcases List.mem_append.mp hmem with hm | hm
          · exact writeLocalVariables_no_lnt lbl l this2 hw e hm
          · exact ih others ha e hm
    | raw name data =>
      cases ha : writeAttrs lbl rest with
      | error e2 => simp [writeAttrs, ha, PResult.instMonad] at h
      | panic => simp [writeAttrs, ha, PResult.instMonad] at h
      | ok others =>
        simp [writeAttrs, ha, PResult.instMonad] at h
        rw [← h]
        intro hmem
        rcases List.mem_cons.mp hmem with hm | hm
        · exact CodeAttr.noConfusion hm
        · exact ih others ha e hm

/-- C3: on `LineNumber(7)` at byte position 0 the write pass does record the
pair `(0, 7)`, but the attribute-writing loop can never emit a
`LineNumberTable`: the recorded map is dropped, and on the concrete input the
written attribute list is empty. -/
theorem line_numbers_recorded_but_never_emitted :
    (passA c1ex.code).line_numbers = [(0, 7)] ∧
    (∀ (lbl : Nat → PResult Nat) (attrs : List CodeAttribute)
        (r : List CodeAttr × Nat), writeAttrs lbl attrs = .ok r →
      ∀ e, CodeAttr.lineNumberTable e ∉ r.1) ∧
    writeCode c1ex = .ok ⟨1, ⟨0, 0, [177], [], []⟩⟩ := by
  exact ⟨by decide, fun lbl attrs r h e => writeAttrs_no_lnt lbl attrs r h e,
    by decide⟩

/-- Witness for C3: the attribute loop on an empty high-level attribute list
yields no attributes at all, in particular no `LineNumberTable`. -/
theorem line_numbers_recorded_but_never_emitted_witness :
    CodeAttr.lineNumberTable [(0, 7)] ∉
      ([] : List CodeAttr) := by
  exact line_numbers_recorded_but_never_emitted.2.1 (fun _ => .ok 0) [] ([], 0)
    rfl [(0, 7)]

/-- C1: the round trip is not semantically faithful: writing
`[LineNumber 7, Return]` emits a single `return` byte and no attributes (the
line-number map is never emitted), so reading the written form back yields
`[Return]` — the `LineNumber` pseudo-instruction does not survive. -/
theorem round_trip_drops_line_number :
    writeCode c1ex = .ok ⟨1, ⟨0, 0, [177], [], []⟩⟩ ∧
    readCode ⟨0, 0, [177], [], []⟩ = .ok ⟨0, 0, [.return_], [], []⟩ ∧
    Instruction.lineNumber 7 ∈ c1ex.code ∧
    Instruction.lineNumber 7 ∉ ([.return_] : List Instruction) := by
  refine ⟨by decide, ?_, by decide, by decide⟩
  simp [readCode, readCodeAux, disasm, decodeInsn, readCatches, processAttrs,
    insertLabels, applyInserts, btPut, insAt, getLabelR, alookup, i16OfBytes]

/-- C2: for the backward conditional jump of `c2ex` (opcode at byte offset 1,
target byte offset 0, relative offset −1, inside the signed 16-bit range) the
sizing pass budgets the narrow 3-byte form — its test compares the projected
absolute target offset with 65535 — while the emission pass, whose
`u16::try_from` fails on every negative relative offset, emits the 10-byte
wide form (inverted conditional `ifne` + `goto_w`), so the written body has 11
bytes against a declared `code_length` of 4. -/
theorem conditional_jump_width_mismatch :
    (passA c2ex.code).labels = [(0, (0, 0))] ∧
    sizingPass (passA c2ex.code).labels
      (indexHints (passA c2ex.code).jumps (passA c2ex.code).buf)
      (passA c2ex.code).jumps (passA c2ex.code).buf 0 = .ok ([3], [4]) ∧
    resolveLabel (passA c2ex.code).labels [4] 4 3 0 = .ok (-1) ∧
    ¬ outsideSigned16 (-1) ∧
    emitJump (passA c2ex.code).labels [4] 4 3 (.jump .eq 0) =
      .ok [154, 0, 0, 0, 5, 200, 255, 255, 255, 255] ∧
    writeCode c2ex = .ok
      ⟨4, ⟨0, 0, [177, 154, 0, 0, 0, 5, 200, 255, 255, 255, 255], [], []⟩⟩ := by
  refine ⟨by decide, by decide, by decide, ?_, by decide, by decide⟩
  intro h
  rcases h with h | h <;> omega

theorem insertLabels_panic_of_missing (p2i : List (Nat × Nat)) :
    ∀ (entries : List (Nat × Nat)) (ti : List (Nat × List Instruction)),
      (∃ off l, (off, l) ∈ entries ∧ alookup p2i off = none) →
      insertLabels p2i ti entries = .panic := by
  intro entries
  induction entries with
  | nil =>
    rintro ti ⟨off, l, hm, _⟩
    simp at hm
  | cons e rest ih =>
    rintro ti ⟨off, l, hm, hn⟩
    obtain ⟨o0, l0⟩ := e
    cases hl : alookup p2i o0 with
    | none => simp [insertLabels, hl]
    | some k =>
      rcases List.mem_cons.mp hm with h1 | h1
      · injection h1 with ha hb
        subst ha
        rw [hl] at hn
        exact absurd hn (by simp)
      · simp only [insertLabels, hl]
        exact ih _ ⟨off, l, h1, hn⟩

theorem insertLineNumbers_panic_of_missing (p2i : List (Nat × Nat)) :
    ∀ (ln : List (Nat × Nat)) (ti : List (Nat × List Instruction)),
      (∃ off line, (off, line) ∈ ln ∧ alookup p2i off = none) →
      insertLineNumbers p2i ti ln = .panic := by
  intro ln
  induction ln with
  | nil =>
    rintro ti ⟨off, line, hm, _⟩
    simp at hm
  | cons e rest ih =>
    rintro ti ⟨off, line, hm, hn⟩
    obtain ⟨o0, n0⟩ := e
    cases hl : alookup p2i o0 with
    | none => simp [insertLineNumbers, hl]
    | some k =>
      rcases List.mem_cons.mp hm with h1 | h1
      · injection h1 with ha hb
        subst ha
        rw [hl] at hn
        exact absurd hn (by simp)
      · simp only [insertLineNumbers, hl]
        exact ih _ ⟨off, line, h1, hn⟩

/-- C10: on the read path, a decoded byte offset that is not the starting
offset of a disassembled instruction (and not the code length) makes
`read_from` panic instead of returning an `Error`: a label offset missing from
`pos2idx` makes the whole read panic, and a `LineNumberTable` start offset
missing from `pos2idx` makes the line-number insertion panic. -/
theorem read_panics_on_unmapped_offsets (inp : CodeInput)
    (insns : List Instruction) (p2i lab0 lab2 : List (Nat × Nat))
    (ti : List (Nat × List Instruction)) (lv : List (LocalVarKey × LocalVar))
    (attrs0 : List CodeAttribute)
    (hd : disasm inp.codeBytes 0 [] [] [] = .ok (insns, p2i, lab0))
    (hp : processAttrs p2i inp.attrs (readCatches lab0 inp.catches).2 [] [] []
      = .ok (lab2, ti, lv, attrs0)) :
    ((∃ off l, (off, l) ∈ lab2 ∧ alookup p2i off = none) →
      readCode inp = .panic) ∧
    (∀ (ln : List (Nat × Nat)) (ti0 : List (Nat × List Instruction)),
      (∃ off line, (off, line) ∈ ln ∧ alookup p2i off = none) →
      insertLineNumbers p2i ti0 ln = .panic) := by
  constructor
  · intro hmiss
    have hins := insertLabels_panic_of_missing p2i lab2 ti hmiss
    simp [readCode, readCodeAux, hd, hp, hins]
  · intro ln ti0 hmiss
    exact insertLineNumbers_panic_of_missing p2i ln ti0 hmiss

/-- Witness for C10: the code bytes `goto +2; return` mint a label at byte
offset 2, which lies inside the 3-byte `goto`; reading panics. -/
theorem read_panics_on_unmapped_offsets_witness : readCode c10inp = .panic := by
  have hd : disasm c10inp.codeBytes 0 [] [] [] =
      .ok ([.jump .always 0, .return_], [(0, 0), (3, 1), (4, 2)], [(2, 0)]) := by
    simp [c10inp, disasm, decodeInsn, getLabelR, alookup, i16OfBytes]
  have hp : processAttrs [(0, 0), (3, 1), (4, 2)] c10inp.attrs
      (readCatches [(2, 0)] c10inp.catches).2 [] [] [] =
      .ok ([(2, 0)], [], [], []) := rfl
  exact (read_panics_on_unmapped_offsets c10inp _ _ _ _ _ _ _ hd hp).1
    ⟨2, 0, by decide, by decide⟩

theorem getLabelR_extend (lab : List (Nat × Nat)) (off : Nat) :
    ∃ t, (getLabelR lab off).2 = lab ++ t := by
  unfold getLabelR
  cases alookup lab off with
  | some l => exact ⟨[], by simp⟩
  | none => exact ⟨[(off, lab.length)], rfl⟩

theorem getLabelR_mem (lab : List (Nat × Nat)) (off : Nat) :
    (off, (getLabelR lab off).1) ∈ (getLabelR lab off).2 := by
  unfold getLabelR
  cases h : alookup lab off with
  | some l => exact alookup_mem h
  | none => simp

theorem LabInv_getLabelR (lab : List (Nat × Nat)) (off : Nat)
    (h : LabInv lab) : LabInv (getLabelR lab off).2 := by
  unfold getLabelR
  cases hl : alookup lab off with
  | some l => exact h
  | none =>
    obtain ⟨hids, hkeys⟩ := h
    have hnotin : off ∉ lab.map Prod.fst := by
      intro hin
      obtain ⟨b, hb, hfst⟩ := List.mem_map.mp hin
      obtain ⟨b1, b2⟩ := b
      have hb1 : b1 = off := hfst
      subst hb1
      exact absurd (alookup_of_mem_nodup hkeys hb) (by simp [hl])
    constructor
    · simp [hids, List.range_succ]
    · simp only [List.map_append, List.map_cons, List.map_nil]
      rw [List.nodup_append]
      refine ⟨hkeys, List.nodup_singleton _, ?_⟩
      intro a ha hb
      simp only [List.mem_singleton] at hb
      subst hb
      exact hnotin ha

theorem btPut_mem (m : List (Nat × List Instruction)) (k : Nat)
    (f : List Instruction → List Instruction) :
    ∀ kv, kv ∈ btPut m k f → kv.1 = k ∨ kv ∈ m := by
  induction m with
  | nil =>
    intro kv h
    simp [btPut] at h
    left
    rw [h]
  | cons hd tl ih =>
    obtain ⟨k1, v1⟩ := hd
    intro kv h
    by_cases h1 : k < k1
    · simp only [btPut, if_pos h1] at h
      rcases List.mem_cons.mp h with hm | hm
      · left; rw [hm]
      · right; exact hm
    · by_cases h2 : k = k1
      · simp only [btPut, if_neg h1, if_pos h2] at h
        rcases List.mem_cons.mp h with hm | hm
        · left; rw [hm, h2]
        · right; exact List.mem_cons_of_mem _ hm
      · simp only [btPut, if_neg h1, if_neg h2] at h
        rcases List.mem_cons.mp h with hm | hm
        · right; rw [hm]; exact List.mem_cons_self _ _
        · rcases ih kv hm with ha | ha
          · left; exact ha
          · right; exact List.mem_cons_of_mem _ ha

theorem btPut_pairwise (k : Nat) (f : List Instruction → List Instruction) :
    ∀ m, List.Pairwise (fun a b => a.1 < b.1) m →
      List.Pairwise (fun a b => a.1 < b.1) (btPut m k f) := by
  intro m
  induction m with
  | nil => intro _; simp [btPut]
  | cons hd tl ih =>
    intro h
    obtain ⟨k1, v1⟩ := hd
    obtain ⟨hhd, htl⟩ := List.pairwise_cons.mp h
    by_cases h1 : k < k1
    · simp only [btPut, if_pos h1]
      refine List.pairwise_cons.mpr ⟨?_, h⟩
      intro b hb
      rcases List.mem_cons.mp hb with hb1 | hb1
      · subst hb1; exact h1
      · exact lt_trans h1 (hhd b hb1)
    · by_cases h2 : k = k1
      · simp only [btPut, if_neg h1, if_pos h2]
        exact List.pairwise_cons.mpr ⟨hhd, htl⟩
      · simp only [btPut, if_neg h1, if_neg h2]
        refine List.pairwise_cons.mpr ⟨?_, ih htl⟩
        intro b hb
        rcases btPut_mem tl k f b hb with hbk | hbm
        · rw [hbk]; omega
        · exact hhd b hbm

theorem btPut_allVals_pred (p : Instruction → Prop) (k : Nat)
    (f : List Instruction → List Instruction)
    (hf : ∀ v, (∀ x ∈ v, p x) → ∀ x ∈ f v, p x) :
    ∀ m, (∀ x ∈ allVals m, p x) → ∀ x ∈ allVals (btPut m k f), p x := by
  intro m
  induction m with
  | nil =>
    intro hm x hx
    simp [btPut, allVals] at hx
    exact hf [] (by simp) x hx
  | cons hd tl ih =>
    obtain ⟨k1, v1⟩ := hd
    intro hm x hx
    have hm1 : ∀ x ∈ v1, p x := fun x hx =>
      hm x (by simp [allVals]; exact Or.inl hx)
    have hm2 : ∀ x ∈ allVals tl, p x := fun x hx =>
      hm x (by simp [allVals] at hx ⊢; exact Or.inr hx)
    by_cases h1 : k < k1
    · simp only [btPut, if_pos h1, allVals, List.map_cons, List.flatten_cons] at hx
      rcases List.mem_append.mp hx with hm3 | hm3
      · exact hf [] (by simp) x hm3
      · exact hm x (by simpa [allVals] using hm3)
    · by_cases h2 : k = k1
      · simp only [btPut, if_neg h1, if_pos h2, allVals, List.map_cons,
          List.flatten_cons] at hx
        rcases List.mem_append.mp hx with hm3 | hm3
        · exact hf v1 hm1 x hm3
        · exact hm2 x (by simpa [allVals] using hm3)
      · simp only [btPut, if_neg h1, if_neg h2, allVals, List.map_cons,
          List.flatten_cons] at hx
        rcases List.mem_append.mp hx with hm3 | hm3
        · exact hm1 x hm3
        · exact ih hm2 x (by simpa [allVals] using hm3)

theorem allVals_btPush_perm (k : Nat) (x : Instruction) :
    ∀ m, (allVals (btPut m k (fun v => v ++ [x]))).Perm (x :: allVals m) := by
  intro m
  induction m with
  | nil => simp [btPut, allVals]
  | cons hd tl ih =>
    obtain ⟨k1, v1⟩ := hd
    by_cases h1 : k < k1
    · simp only [btPut, if_pos h1, allVals, List.map_cons, List.flatten_cons,
        List.singleton_append]
      exact List.Perm.refl _
    · by_cases h2 : k = k1
      · simp only [btPut, if_neg h1, if_pos h2, allVals, List.map_cons,
          List.flatten_cons]
        rw [List.append_assoc]
        exact List.perm_middle
      · simp only [btPut, if_neg h1, if_neg h2, allVals, List.map_cons,
          List.flatten_cons]
        refine List.Perm.trans (List.Perm.append_left v1 ?_) List.perm_middle
        simpa [allVals] using ih

theorem extend_trans {α : Type} {a b c : List α} (h1 : ∃ t, b = a ++ t)
    (h2 : ∃ t, c = b ++ t) : ∃ t, c = a ++ t := by
  obtain ⟨t1, rfl⟩ := h1
  obtain ⟨t2, rfl⟩ := h2
  exact ⟨t1 ++ t2, by simp⟩

theorem mem_of_extend {α : Type} {a b : List α} {x : α} (h : ∃ t, b = a ++ t)
    (hm : x ∈ a) : x ∈ b := by
  obtain ⟨t, rfl⟩ := h
  exact List.mem_append_left _ hm

theorem decodeInsn_spec (lab : List (Nat × Nat)) (pos b : Nat)
    (rest : List Nat) (insn : Instruction) (k : Nat) (lab2 : List (Nat × Nat))
    (h : decodeInsn lab pos b rest = .ok (insn, k, lab2)) :
    (∃ t, lab2 = lab ++ t) ∧
    (LabInv lab → LabInv lab2) ∧
    (∀ x ∈ insn.refLabels, ∃ off, (off, x) ∈ lab2) ∧
    (∀ l, insn ≠ .label l) ∧ (∀ n, insn ≠ .lineNumber n) := by
  unfold decodeInsn at h
  by_cases h0 : b = 0
  · rw [if_pos h0] at h
    simp only [Except.ok.injEq, Prod.mk.injEq] at h
    obtain ⟨h1, h2, h3⟩ := h
    subst h1
    subst h3
    exact ⟨⟨[], by simp⟩, fun hi => hi, by simp [Instruction.refLabels],
      by simp, by simp⟩
  · rw [if_neg h0] at h
    by_cases h177 : b = 177
    · rw [if_pos h177] at h
      simp only [Except.ok.injEq, Prod.mk.injEq] at h
      obtain ⟨h1, h2, h3⟩ := h
      subst h1
      subst h3
      exact ⟨⟨[], by simp⟩, fun hi => hi, by simp [Instruction.refLabels],
        by simp, by simp⟩
    · rw [if_neg h177] at h
      by_cases hbr : b = 167 ∨ (153 ≤ b ∧ b ≤ 158) ∨ b = 198 ∨ b = 199
      · rw [if_pos hbr] at h
        match rest with
        | [] => exact absurd h (by simp)
        | [_] => exact absurd h (by simp)
        | hi :: lo :: r2 =>
          dsimp only [] at h
          rcases hgl : getLabelR lab (Int.toNat ((pos : Int) + i16OfBytes hi lo))
            with ⟨l0, lab0⟩
          rw [hgl] at h
          have hext : ∃ t, lab0 = lab ++ t := by
            have := getLabelR_extend lab (Int.toNat ((pos : Int) + i16OfBytes hi lo))
            rwa [hgl] at this
          have hinv : LabInv lab → LabInv lab0 := by
            intro hi2
            have := LabInv_getLabelR lab
              (Int.toNat ((pos : Int) + i16OfBytes hi lo)) hi2
            rwa [hgl] at this
          have hmem : (Int.toNat ((pos : Int) + i16OfBytes hi lo), l0) ∈ lab0 := by
            have := getLabelR_mem lab (Int.toNat ((pos : Int) + i16OfBytes hi lo))
            rwa [hgl] at this
          by_cases h167 : b = 167
          · rw [if_pos h167] at h
            simp only [Except.ok.injEq, Prod.mk.injEq] at h
            obtain ⟨h1, h2, h3⟩ := h
            subst h1
            subst h3
            exact ⟨hext, hinv, by
              intro x hx
              simp [Instruction.refLabels] at hx
              subst hx
              exact ⟨_, hmem⟩, by simp, by simp⟩
          · rw [if_neg h167] at h
            simp only [Except.ok.injEq, Prod.mk.injEq] at h
            obtain ⟨h1, h2, h3⟩ := h
            subst h1
            subst h3
            exact ⟨hext, hinv, by
              intro x hx
              simp [Instruction.refLabels] at hx
              subst hx
              exact ⟨_, hmem⟩, by simp, by simp⟩
      · rw [if_neg hbr] at h
        exact absurd h (by simp)

theorem disasm_spec :
    ∀ (bytes : List Nat) (pos : Nat) (lab : List (Nat × Nat))
      (insns : List Instruction) (p2i : List (Nat × Nat))
      (insnsF : List Instruction) (p2iF labF : List (Nat × Nat)),
      disasm bytes pos lab insns p2i = .ok (insnsF, p2iF, labF) →
      LabInv lab →
      p2i.map Prod.snd = List.range insns.length →
      (∀ i ∈ insns, ∀ x ∈ Instruction.refLabels i, ∃ off, (off, x) ∈ lab) →
      (∀ i ∈ insns, (∀ l, i ≠ .label l) ∧ (∀ n, i ≠ .lineNumber n)) →
      LabInv labF ∧ (∃ t, labF = lab ++ t) ∧
      p2iF.map Prod.snd = List.range (insnsF.length + 1) ∧
      (∀ i ∈ insnsF, ∀ x ∈ Instruction.refLabels i, ∃ off, (off, x) ∈ labF) ∧
      (∀ i ∈ insnsF, (∀ l, i ≠ .label l) ∧ (∀ n, i ≠ .lineNumber n)) := by
  intro bytes pos lab insns p2i
  induction bytes, pos, lab, insns, p2i using disasm.induct with
  | case1 pos lab insns p2i =>
    intro insnsF p2iF labF h hInv hp2i hrefs hnl
    simp only [disasm, Except.ok.injEq, Prod.mk.injEq] at h
    obtain ⟨h1, h2, h3⟩ := h
    subst h1
    subst h2
    subst h3
    refine ⟨hInv, ⟨[], by simp⟩, ?_, hrefs, hnl⟩
    simp [hp2i, List.range_succ]
  | case2 b rest pos lab insns p2i e hdec =>
    intro insnsF p2iF labF h hInv hp2i hrefs hnl
    simp [disasm, hdec] at h
  | case3 b rest pos lab insns p2i insn k lab2 hdec ih =>
    intro insnsF p2iF labF h hInv hp2i hrefs hnl
    simp only [disasm, hdec] at h
    obtain ⟨hext, hinv2, hrefs2, hnl2a, hnl2b⟩ :=
      decodeInsn_spec lab pos b rest insn k lab2 hdec
    have hcall := ih insnsF p2iF labF h (hinv2 hInv)
      (by simp [hp2i, List.range_succ])
      (by
        intro i hi x hx
        rcases List.mem_append.mp hi with hm | hm
        · obtain ⟨off, ho⟩ := hrefs i hm x hx
          exact ⟨off, mem_of_extend hext ho⟩
        · simp at hm
          subst hm
          exact hrefs2 x hx)
      (by
        intro i hi
        rcases List.mem_append.mp hi with hm | hm
        · exact hnl i hm
        · simp at hm
          subst hm
          exact ⟨hnl2a, hnl2b⟩)
    exact ⟨hcall.1, extend_trans hext hcall.2.1, hcall.2.2⟩

theorem readCatches_spec :
    ∀ (cs : List (Nat × Nat × Nat × Option String)) (lab : List (Nat × Nat)),
      LabInv lab →
      LabInv (readCatches lab cs).2 ∧
      (∃ t, (readCatches lab cs).2 = lab ++ t) ∧
      (∀ c ∈ (readCatches lab cs).1, ∀ x ∈ Catch.refLabels c,
        ∃ off, (off, x) ∈ (readCatches lab cs).2) := by
  intro cs
  induction cs with
  | nil =>
    intro lab h
    exact ⟨h, ⟨[], by simp [readCatches]⟩, by simp [readCatches]⟩
  | cons e rest ih =>
    intro lab h
    obtain ⟨s, e2, hh, ty⟩ := e
    rcases hg1 : getLabelR lab s with ⟨l1, lab1⟩
    rcases hg2 : getLabelR lab1 e2 with ⟨l2, lab2⟩
    rcases hg3 : getLabelR lab2 hh with ⟨l3, lab3⟩
    have hx1 : ∃ t, lab1 = lab ++ t := by
      have := getLabelR_extend lab s; rwa [hg1] at this
    have hx2 : ∃ t, lab2 = lab1 ++ t := by
      have := getLabelR_extend lab1 e2; rwa [hg2] at this
    have hx3 : ∃ t, lab3 = lab2 ++ t := by
      have := getLabelR_extend lab2 hh; rwa [hg3] at this
    have hi1 : LabInv lab1 := by
      have := LabInv_getLabelR lab s h; rwa [hg1] at this
    have hi2 : LabInv lab2 := by
      have := LabInv_getLabelR lab1 e2 hi1; rwa [hg2] at this
    have hi3 : LabInv lab3 := by
      have := LabInv_getLabelR lab2 hh hi2; rwa [hg3] at this
    have hm1 : (s, l1) ∈ lab1 := by
      have := getLabelR_mem lab s; rwa [hg1] at this
    have hm2 : (e2, l2) ∈ lab2 := by
      have := getLabelR_mem lab1 e2; rwa [hg2] at this
    have hm3 : (hh, l3) ∈ lab3 := by
      have := getLabelR_mem lab2 hh; rwa [hg3] at this
    obtain ⟨hfi, hfx, hfm⟩ := ih lab3 hi3
    have hres : readCatches lab ((s, e2, hh, ty) :: rest) =
        ({ start := l1, end_ := l2, handler := l3, catchTy := ty } ::
          (readCatches lab3 rest).1, (readCatches lab3 rest).2) := by
      simp [readCatches, hg1, hg2, hg3]
    rw [hres]
    have hxf : ∃ t, (readCatches lab3 rest).2 = lab3 ++ t := hfx
    refine ⟨hfi, extend_trans hx1 (extend_trans hx2 (extend_trans hx3 hxf)), ?_⟩
    intro c hc x hx
    rcases List.mem_cons.mp hc with hc1 | hc1
    · subst hc1
      simp [Catch.refLabels] at hx
      rcases hx with hx | hx | hx
      · subst hx
        exact ⟨s, mem_of_extend hxf (mem_of_extend hx3 (mem_of_extend hx2 hm1))⟩
      · subst hx
        exact ⟨e2, mem_of_extend hxf (mem_of_extend hx3 hm2)⟩
      · subst hx
        exact ⟨hh, mem_of_extend hxf hm3⟩
    · exact hfm c hc1 x hx

theorem mergeLocalVarTable_spec :
    ∀ (es : List LocalVarEntry) (lab : List (Nat × Nat))
      (lv : List (LocalVarKey × LocalVar)),
      LabInv lab →
      LabInv (mergeLocalVarTable lab lv es).2 ∧
      ∃ t, (mergeLocalVarTable lab lv es).2 = lab ++ t := by
  intro es
  induction es with
  | nil =>
    intro lab lv h
    exact ⟨h, ⟨[], by simp [mergeLocalVarTable]⟩⟩
  | cons l rest ih =>
    intro lab lv h
    rcases hg1 : getLabelR lab l.start with ⟨s, lab1⟩
    rcases hg2 : getLabelR lab1 (l.start + l.len) with ⟨e, lab2⟩
    have hx1 : ∃ t, lab1 = lab ++ t := by
      have := getLabelR_extend lab l.start; rwa [hg1] at this
    have hx2 : ∃ t, lab2 = lab1 ++ t := by
      have := getLabelR_extend lab1 (l.start + l.len); rwa [hg2] at this
    have hi1 : LabInv lab1 := by
      have := LabInv_getLabelR lab l.start h; rwa [hg1] at this
    have hi2 : LabInv lab2 := by
      have := LabInv_getLabelR lab1 (l.start + l.len) hi1; rwa [hg2] at this
    have hstep : mergeLocalVarTable lab lv (l :: rest) =
        mergeLocalVarTable lab2
          (match alookup lv (s, e, l.index, l.name) with
           | some old => aInsert lv (s, e, l.index, l.name)
               { old with descriptor := some l.descriptor }
           | none => lv ++ [((s, e, l.index, l.name),
               { start := s, end_ := e, name := l.name,
                 descriptor := some l.descriptor, signature := none,
                 index := l.index })]) rest := by
      simp [mergeLocalVarTable, hg1, hg2]
    rw [hstep]
    obtain ⟨hfi, hfx⟩ := ih lab2 _ hi2
    exact ⟨hfi, extend_trans hx1 (extend_trans hx2 hfx)⟩

theorem mergeLocalVarTypeTable_spec :
    ∀ (es : List LocalVarTypeEntry) (lab : List (Nat × Nat))
      (lv : List (LocalVarKey × LocalVar)),
      LabInv lab →
      LabInv (mergeLocalVarTypeTable lab lv es).2 ∧
      ∃ t, (mergeLocalVarTypeTable lab lv es).2 = lab ++ t := by
  intro es
  induction es with
  | nil =>
    intro lab lv h
    exact ⟨h, ⟨[], by simp [mergeLocalVarTypeTable]⟩⟩
  | cons l rest ih =>
    intro lab lv h
    rcases hg1 : getLabelR lab l.start with ⟨s, lab1⟩
    rcases hg2 : getLabelR lab1 (l.start + l.len) with ⟨e, lab2⟩
    have hx1 : ∃ t, lab1 = lab ++ t := by
      have := getLabelR_extend lab l.start; rwa [hg1] at this
    have hx2 : ∃ t, lab2 = lab1 ++ t := by
      have := getLabelR_extend lab1 (l.start + l.len); rwa [hg2] at this
    have hi1 : LabInv lab1 := by
      have := LabInv_getLabelR lab l.start h; rwa [hg1] at this
    have hi2 : LabInv lab2 := by
      have := LabInv_getLabelR lab1 (l.start + l.len) hi1; rwa [hg2] at this
    have hstep : mergeLocalVarTypeTable lab lv (l :: rest) =
        mergeLocalVarTypeTable lab2
          (match alookup lv (s, e, l.index, l.name) with
           | some old => aInsert lv (s, e, l.index, l.name)
               { old with signature := some l.signature }
           | none => lv ++ [((s, e, l.index, l.name),
               { start := s, end_ := e, name := l.name,
                 descriptor := none, signature := some l.signature,
                 index := l.index })]) rest := by
      simp [mergeLocalVarTypeTable, hg1, hg2]
    rw [hstep]
    obtain ⟨hfi, hfx⟩ := ih lab2 _ hi2
    exact ⟨hfi, extend_trans hx1 (extend_trans hx2 hfx)⟩

theorem insertLineNumbers_spec (p2i : List (Nat × Nat)) :
    ∀ (ln : List (Nat × Nat)) (ti ti2 : List (Nat × List Instruction)),
      insertLineNumbers p2i ti ln = .ok ti2 →
      List.Pairwise (fun a b => a.1 < b.1) ti →
      (∀ kv ∈ ti, kv.1 ∈ p2i.map Prod.snd) →
      (∀ x ∈ allVals ti, ∃ n, x = Instruction.lineNumber n) →
      List.Pairwise (fun a b => a.1 < b.1) ti2 ∧
      (∀ kv ∈ ti2, kv.1 ∈ p2i.map Prod.snd) ∧
      (∀ x ∈ allVals ti2, ∃ n, x = Instruction.lineNumber n) := by
  intro ln
  induction ln with
  | nil =>
    intro ti ti2 h h1 h2 h3
    simp [insertLineNumbers] at h
    subst h
    exact ⟨h1, h2, h3⟩
  | cons e rest ih =>
    intro ti ti2 h h1 h2 h3
    obtain ⟨off, line⟩ := e
    cases hl : alookup p2i off with
    | none => simp [insertLineNumbers, hl] at h
    | some k =>
      simp only [insertLineNumbers, hl] at h
      refine ih _ _ h (btPut_pairwise _ _ _ h1) ?_ ?_
      · intro kv hkv
        rcases btPut_mem _ _ _ kv hkv with hk | hk
        · rw [hk]
          exact List.mem_map.mpr ⟨(off, k), alookup_mem hl, rfl⟩
        · exact h2 kv hk
      · refine btPut_allVals_pred _ _ _ ?_ _ h3
        intro v _ x hx
        simp at hx
        exact ⟨line, hx⟩

theorem processAttrs_spec (p2i : List (Nat × Nat)) :
    ∀ (attrs : List CodeAttr) (lab : List (Nat × Nat))
      (ti : List (Nat × List Instruction)) (lv : List (LocalVarKey × LocalVar))
      (acc : List CodeAttribute) (lab2 : List (Nat × Nat))
      (ti2 : List (Nat × List Instruction))
      (lv2 : List (LocalVarKey × LocalVar)) (acc2 : List CodeAttribute),
      processAttrs p2i attrs lab ti lv acc = .ok (lab2, ti2, lv2, acc2) →
      LabInv lab →
      List.Pairwise (fun a b => a.1 < b.1) ti →
      (∀ kv ∈ ti, kv.1 ∈ p2i.map Prod.snd) →
      (∀ x ∈ allVals ti, ∃ n, x = Instruction.lineNumber n) →
      LabInv lab2 ∧ (∃ t, lab2 = lab ++ t) ∧
      List.Pairwise (fun a b => a.1 < b.1) ti2 ∧
      (∀ kv ∈ ti2, kv.1 ∈ p2i.map Prod.snd) ∧
      (∀ x ∈ allVals ti2, ∃ n, x = Instruction.lineNumber n) := by
  intro attrs
  induction attrs with
  | nil =>
    intro lab ti lv acc lab2 ti2 lv2 acc2 h hInv h1 h2 h3
    simp only [processAttrs, PResult.ok.injEq, Prod.mk.injEq] at h
    obtain ⟨ha, hb, hc, hd⟩ := h
    subst ha
    subst hb
    exact ⟨hInv, ⟨[], by simp⟩, h1, h2, h3⟩
  | cons a rest ih =>
    intro lab ti lv acc lab2 ti2 lv2 acc2 h hInv h1 h2 h3
    cases a with
    | lineNumberTable ln =>
      cases hln : insertLineNumbers p2i ti ln with
      | error e => simp [processAttrs, hln] at h
      | panic => simp [processAttrs, hln] at h
      | ok tiX =>
        simp only [processAttrs, hln] at h
        obtain ⟨hp1, hp2, hp3⟩ := insertLineNumbers_spec p2i ln ti tiX hln h1 h2 h3
        exact ih lab tiX lv acc lab2 ti2 lv2 acc2 h hInv hp1 hp2 hp3
    | localVariableTable es =>
      simp only [processAttrs] at h
      obtain ⟨hmi, hmx⟩ := mergeLocalVarTable_spec es lab lv hInv
      obtain ⟨ra, rb, rc, rd, re⟩ :=
        ih _ _ _ _ _ _ _ _ h hmi h1 h2 h3
      exact ⟨ra, extend_trans hmx rb, rc, rd, re⟩
    | localVariableTypeTable es =>
      simp only [processAttrs] at h
      obtain ⟨hmi, hmx⟩ := mergeLocalVarTypeTable_spec es lab lv hInv
      obtain ⟨ra, rb, rc, rd, re⟩ :=
        ih _ _ _ _ _ _ _ _ h hmi h1 h2 h3
      exact ⟨ra, extend_trans hmx rb, rc, rd, re⟩
    | stackMapTable =>
      simp only [processAttrs] at h
      exact ih _ _ _ _ _ _ _ _ h hInv h1 h2 h3
    | raw name data =>
      simp only [processAttrs] at h
      exact ih _ _ _ _ _ _ _ _ h hInv h1 h2 h3

theorem btPush_self (k : Nat) (x : Instruction) :
    ∀ m, ∃ v, (k, v) ∈ btPut m k (fun w => w ++ [x]) ∧ x ∈ v := by
  intro m
  induction m with
  | nil => exact ⟨[x], by simp [btPut], by simp⟩
  | cons hd tl ih =>
    obtain ⟨k1, v1⟩ := hd
    by_cases h1 : k < k1
    · exact ⟨[x], by simp [btPut, h1], by simp⟩
    · by_cases h2 : k = k1
      · refine ⟨v1 ++ [x], ?_, by simp⟩
        simp only [btPut, if_neg h1, if_pos h2]
        rw [h2]
        exact List.mem_cons_self _ _
      · obtain ⟨v, hv, hx⟩ := ih
        refine ⟨v, ?_, hx⟩
        simp only [btPut, if_neg h1, if_neg h2]
        exact List.mem_cons_of_mem _ hv

theorem btPush_mem_mono (k1 : Nat) (x1 : Instruction) (k : Nat)
    (v : List Instruction) (x0 : Instruction) :
    ∀ m, (k, v) ∈ m → x0 ∈ v →
      ∃ v2, (k, v2) ∈ btPut m k1 (fun w => w ++ [x1]) ∧ x0 ∈ v2 := by
  intro m
  induction m with
  | nil => intro hm _; simp at hm
  | cons hd tl ih =>
    intro hm hx
    obtain ⟨ka, va⟩ := hd
    by_cases h1 : k1 < ka
    · refine ⟨v, ?_, hx⟩
      simp only [btPut, if_pos h1]
      exact List.mem_cons_of_mem _ hm
    · by_cases h2 : k1 = ka
      · rcases List.mem_cons.mp hm with he | he
        · have hek : k = ka := congrArg Prod.fst he
          have hev : v = va := congrArg Prod.snd he
          refine ⟨va ++ [x1], ?_, List.mem_append_left _ (hev ▸ hx)⟩
          simp only [btPut, if_neg h1, if_pos h2]
          rw [hek]
          exact List.mem_cons_self _ _
        · refine ⟨v, ?_, hx⟩
          simp only [btPut, if_neg h1, if_pos h2]
          exact List.mem_cons_of_mem _ he
      · rcases List.mem_cons.mp hm with he | he
        · refine ⟨v, ?_, hx⟩
          simp only [btPut, if_neg h1, if_neg h2]
          rw [he]
          exact List.mem_cons_self _ _
        · obtain ⟨v2, hv2, hx2⟩ := ih he hx
          refine ⟨v2, ?_, hx2⟩
          simp only [btPut, if_neg h1, if_neg h2]
          exact List.mem_cons_of_mem _ hv2

theorem insertLabels_mem_mono (p2i : List (Nat × Nat)) :
    ∀ (entries : List (Nat × Nat)) (ti ti2 : List (Nat × List Instruction)),
      insertLabels p2i ti entries = .ok ti2 →
      ∀ k v x, (k, v) ∈ ti → x ∈ v → ∃ v2, (k, v2) ∈ ti2 ∧ x ∈ v2 := by
  intro entries
  induction entries with
  | nil =>
    intro ti ti2 h k v x hm hx
    simp [insertLabels] at h
    subst h
    exact ⟨v, hm, hx⟩
  | cons e rest ih =>
    intro ti ti2 h k v x hm hx
    obtain ⟨off, l⟩ := e
    cases hl : alookup p2i off with
    | none => simp [insertLabels, hl] at h
    | some k0 =>
      simp only [insertLabels, hl] at h
      obtain ⟨v1, hv1, hx1⟩ := btPush_mem_mono k0 (.label l) k v x ti hm hx
      exact ih _ _ h k v1 x hv1 hx1

theorem insertLabels_mem (p2i : List (Nat × Nat)) :
    ∀ (entries : List (Nat × Nat)) (ti ti2 : List (Nat × List Instruction)),
      insertLabels p2i ti entries = .ok ti2 →
      ∀ off l, (off, l) ∈ entries →
        ∃ k v, alookup p2i off = some k ∧ (k, v) ∈ ti2 ∧
          Instruction.label l ∈ v := by
  intro entries
  induction entries with
  | nil =>
    intro ti ti2 h off l hm
    simp at hm
  | cons e rest ih =>
    intro ti ti2 h off l hm
    obtain ⟨o0, l0⟩ := e
    cases hl : alookup p2i o0 with
    | none => simp [insertLabels, hl] at h
    | some k0 =>
      simp only [insertLabels, hl] at h
      rcases List.mem_cons.mp hm with he | he
      · injection he with hea heb
        subst hea
        subst heb
        obtain ⟨v, hv, hx⟩ := btPush_self k0 (.label l) ti
        obtain ⟨v2, hv2, hx2⟩ := insertLabels_mem_mono p2i rest _ ti2 h k0 v
          (.label l) hv hx
        exact ⟨k0, v2, hl, hv2, hx2⟩
      · exact ih _ _ h off l he

theorem insertLabels_count (p2i : List (Nat × Nat)) :
    ∀ (entries : List (Nat × Nat)) (ti ti2 : List (Nat × List Instruction)),
      insertLabels p2i ti entries = .ok ti2 →
      (entries.map Prod.snd).Nodup →
      ∀ l, (allVals ti2).count (.label l) =
        (allVals ti).count (.label l) +
          (if l ∈ entries.map Prod.snd then 1 else 0) := by
  intro entries
  induction entries with
  | nil =>
    intro ti ti2 h _ l
    simp [insertLabels] at h
    subst h
    simp
  | cons e rest ih =>
    intro ti ti2 h hnd l
    obtain ⟨o0, l0⟩ := e
    cases hl : alookup p2i o0 with
    | none => simp [insertLabels, hl] at h
    | some k0 =>
      simp only [insertLabels, hl] at h
      simp only [List.map_cons, List.nodup_cons] at hnd
      have hcount := ih _ _ h hnd.2 l
      have hperm := allVals_btPush_perm k0 (Instruction.label l0) ti
      have hstep : (allVals (btPut ti k0 (fun w => w ++ [.label l0]))).count
          (Instruction.label l) =
          (allVals ti).count (.label l) +
            (if l = l0 then 1 else 0) := by
        rw [hperm.count_eq]
        by_cases heq : l = l0
        · subst heq
          simp [List.count_cons]
        · simp [List.count_cons, heq, Ne.symm heq]
      rw [hcount, hstep]
      by_cases heq : l = l0
      · subst heq
        have : l ∉ rest.map Prod.snd := hnd.1
        simp [this]
      · by_cases hmr : l ∈ List.map Prod.snd rest <;>
          simp [List.mem_cons, heq, hmr]

theorem insertLabels_sorted_keys (p2i : List (Nat × Nat)) :
    ∀ (entries : List (Nat × Nat)) (ti ti2 : List (Nat × List Instruction)),
      insertLabels p2i ti entries = .ok ti2 →
      List.Pairwise (fun a b => a.1 < b.1) ti →
      (∀ kv ∈ ti, kv.1 ∈ p2i.map Prod.snd) →
      List.Pairwise (fun a b => a.1 < b.1) ti2 ∧
      (∀ kv ∈ ti2, kv.1 ∈ p2i.map Prod.snd) := by
  intro entries
  induction entries with
  | nil =>
    intro ti ti2 h h1 h2
    simp [insertLabels] at h
    subst h
    exact ⟨h1, h2⟩
  | cons e rest ih =>
    intro ti ti2 h h1 h2
    obtain ⟨o0, l0⟩ := e
    cases hl : alookup p2i o0 with
    | none => simp [insertLabels, hl] at h
    | some k0 =>
      simp only [insertLabels, hl] at h
      refine ih _ _ h (btPut_pairwise _ _ _ h1) ?_
      intro kv hkv
      rcases btPut_mem _ _ _ kv hkv with hk | hk
      · rw [hk]
        exact List.mem_map.mpr ⟨(o0, k0), alookup_mem hl, rfl⟩
      · exact h2 kv hk

theorem insertLabels_vals (p2i : List (Nat × Nat)) (P : Instruction → Prop)
    (hP : ∀ l, P (.label l)) :
    ∀ (entries : List (Nat × Nat)) (ti ti2 : List (Nat × List Instruction)),
      insertLabels p2i ti entries = .ok ti2 →
      (∀ x ∈ allVals ti, P x) →
      ∀ x ∈ allVals ti2, P x := by
  intro entries
  induction entries with
  | nil =>
    intro ti ti2 h hv
    simp [insertLabels] at h
    subst h
    exact hv
  | cons e rest ih =>
    intro ti ti2 h hv
    obtain ⟨o0, l0⟩ := e
    cases hl : alookup p2i o0 with
    | none => simp [insertLabels, hl] at h
    | some k0 =>
      simp only [insertLabels, hl] at h
      refine ih _ _ h ?_
      refine btPut_allVals_pred P k0 _ ?_ _ hv
      intro v hvp x hx
      rcases List.mem_append.mp hx with hm | hm
      · exact hvp x hm
      · simp at hm
        subst hm
        exact hP l0

theorem insAt_perm {α : Type} (a : α) :
    ∀ (l : List α) (k : Nat), (insAt k a l).Perm (a :: l) := by
  intro l
  induction l with
  | nil => intro k; cases k <;> simp [insAt]
  | cons b l ih =>
    intro k
    cases k with
    | zero => simp [insAt]
    | succ n =>
      simp only [insAt]
      exact List.Perm.trans (List.Perm.cons b (ih n)) (List.Perm.swap a b l)

theorem foldInsAt_perm (k : Nat) :
    ∀ (v acc : List Instruction),
      (v.foldl (fun a i => insAt k i a) acc).Perm (v ++ acc) := by
  intro v
  induction v with
  | nil => intro acc; simp
  | cons x v ih =>
    intro acc
    simp only [List.foldl_cons, List.cons_append]
    refine List.Perm.trans (ih (insAt k x acc)) ?_
    refine List.Perm.trans (List.Perm.append_left v (insAt_perm x acc k)) ?_
    exact List.perm_middle

theorem applyList_perm :
    ∀ (L : List (Nat × List Instruction)) (acc : List Instruction),
      (L.foldl (fun acc kv => kv.2.foldl (fun a i => insAt kv.1 i a) acc)
        acc).Perm (allVals L ++ acc) := by
  intro L
  induction L with
  | nil => intro acc; simp [allVals]
  | cons hd L ih =>
    intro acc
    obtain ⟨k, v⟩ := hd
    simp only [List.foldl_cons]
    refine List.Perm.trans (ih _) ?_
    refine List.Perm.trans (List.Perm.append_left _ (foldInsAt_perm k v acc)) ?_
    have h1 : allVals L ++ (v ++ acc) = (allVals L ++ v) ++ acc := by
      rw [List.append_assoc]
    rw [h1]
    have h2 : allVals ((k, v) :: L) = v ++ allVals L := by
      simp [allVals]
    rw [h2]
    exact List.Perm.append_right acc List.perm_append_comm

theorem applyInserts_perm (ti : List (Nat × List Instruction))
    (insns : List Instruction) :
    (applyInserts ti insns).Perm (allVals ti ++ insns) := by
  refine List.Perm.trans (applyList_perm ti.reverse insns) ?_
  refine List.Perm.append_right insns ?_
  simp only [allVals]
  refine List.Perm.flatten ?_
  rw [List.map_reverse]
  exact List.reverse_perm _

theorem insAt_append {α : Type} (a : α) :
    ∀ (X Y : List α) (k : Nat), X.length = k →
      insAt k a (X ++ Y) = X ++ a :: Y := by
  intro X
  induction X with
  | nil =>
    intro Y k h
    simp at h
    subst h
    simp [insAt]
  | cons b X ih =>
    intro Y k h
    cases k with
    | zero => simp at h
    | succ n =>
      simp only [List.length_cons, Nat.succ.injEq] at h
      simp only [List.cons_append, insAt]
      exact congrArg (List.cons b) (ih Y n h)

theorem foldInsAt_append (k : Nat) :
    ∀ (v X Y : List Instruction), X.length = k →
      v.foldl (fun a i => insAt k i a) (X ++ Y) = X ++ v.reverse ++ Y := by
  intro v
  induction v with
  | nil => intro X Y _; simp
  | cons x v ih =>
    intro X Y hX
    simp only [List.foldl_cons]
    rw [insAt_append x X Y k hX, ih X (x :: Y) hX]
    simp [List.reverse_cons, List.append_assoc]

theorem interleave_split (k : Nat) (orig : List Instruction) :
    ∀ (m : List (Nat × List Instruction)),
      (∀ kv ∈ m, k ≤ kv.1) → k ≤ orig.length →
      interleaveSpec m orig =
        orig.take k ++
          interleaveSpec (m.map (fun e => (e.1 - k, e.2))) (orig.drop k) := by
  intro m hk hkl
  cases m with
  | nil => simp [interleaveSpec]
  | cons hd m2 =>
    obtain ⟨k1, v1⟩ := hd
    have hk1 : k ≤ k1 := hk (k1, v1) (List.mem_cons_self _ _)
    simp only [interleaveSpec, List.map_cons, List.map_map]
    have h1 : orig.take k ++ (orig.drop k).take (k1 - k) = orig.take k1 := by
      have hsum : k1 = k + (k1 - k) := by omega
      conv_rhs => rw [hsum, List.take_add]
    have h2 : (orig.drop k).drop (k1 - k) = orig.drop k1 := by
      rw [List.drop_drop]
      congr 1
      omega
    have h3 : m2.map ((fun e => ((e.1 - (k1 - k), e.2) : Nat × List Instruction)) ∘
        (fun e => ((e.1 - k, e.2) : Nat × List Instruction))) =
        m2.map (fun e => (e.1 - k1, e.2)) := by
      refine List.map_congr_left ?_
      intro e _
      have hsub : e.1 - k - (k1 - k) = e.1 - k1 := by omega
      simp [Function.comp, hsub]
    simp only [← List.append_assoc]
    rw [h1, h2, h3]

theorem applyInserts_eq_interleave :
    ∀ (m : List (Nat × List Instruction)) (orig : List Instruction),
      List.Pairwise (fun a b => a.1 < b.1) m →
      (∀ kv ∈ m, kv.1 ≤ orig.length) →
      applyInserts m orig = interleaveSpec m orig := by
  intro m
  induction m with
  | nil =>
    intro orig _ _
    simp [applyInserts, interleaveSpec]
  | cons hd m2 ih =>
    intro orig hp hb
    obtain ⟨k, v⟩ := hd
    obtain ⟨hhd, htl⟩ := List.pairwise_cons.mp hp
    have hk : k ≤ orig.length := hb (k, v) (List.mem_cons_self _ _)
    have step : applyInserts ((k, v) :: m2) orig =
        v.foldl (fun a i => insAt k i a) (applyInserts m2 orig) := by
      simp [applyInserts, List.reverse_cons, List.foldl_append]
    rw [step, ih orig htl (fun kv hkv => hb kv (List.mem_cons_of_mem _ hkv))]
    rw [interleave_split k orig m2 (fun kv hkv => le_of_lt (hhd kv hkv)) hk]
    rw [foldInsAt_append k v (orig.take k) _
      (by simp [List.length_take]; omega)]
    conv_rhs => rw [interleaveSpec]

/-- C8: for every successful `Code::read_from`, the resulting instruction
sequence is the disassembled sequence with the queued pseudo-instructions
interleaved at their `pos2idx` indices; every label minted during the read
(jump targets, catch boundaries, local-variable ranges) occurs exactly once
as a `Label` pseudo-instruction, queued at the index `pos2idx` assigns to its
byte offset; and every label referenced by an instruction or catch of the
result is a minted one. -/
theorem read_minted_labels_spec (inp : CodeInput) (t : ReadTrace)
    (h : readCodeAux inp = .ok t) :
    t.result.code = interleaveSpec t.toIns t.insns ∧
    (∀ off l, (off, l) ∈ t.lab →
      t.result.code.count (.label l) = 1 ∧
      ∃ k v, alookup t.p2i off = some k ∧ (k, v) ∈ t.toIns ∧
        Instruction.label l ∈ v) ∧
    (∀ i ∈ t.result.code, ∀ x ∈ Instruction.refLabels i,
      ∃ off, (off, x) ∈ t.lab) ∧
    (∀ c ∈ t.result.catches, ∀ x ∈ Catch.refLabels c,
      ∃ off, (off, x) ∈ t.lab) := by
  unfold readCodeAux at h
  cases hd : disasm inp.codeBytes 0 [] [] [] with
  | error e => rw [hd] at h; exact absurd h (by simp)
  | ok trip =>
    rw [hd] at h
    obtain ⟨insns, p2i, lab0⟩ := trip
    cases hp : processAttrs p2i inp.attrs (readCatches lab0 inp.catches).2
        [] [] [] with
    | error e => simp only [hp] at h; exact absurd h (by simp)
    | panic => simp only [hp] at h; exact absurd h (by simp)
    | ok quad =>
      simp only [hp] at h
      obtain ⟨lab2, ti, lv, attrs0⟩ := quad
      cases hil : insertLabels p2i ti lab2 with
      | error e => simp only [hil] at h; exact absurd h (by simp)
      | panic => simp only [hil] at h; exact absurd h (by simp)
      | ok ti2 =>
        simp only [hil, PResult.ok.injEq] at h
        subst h
        -- facts from the disassembly
        obtain ⟨hInv0, _, hp2i, hrefs0, hnl0⟩ :=
          disasm_spec inp.codeBytes 0 [] [] [] insns p2i lab0 hd
            ⟨rfl, List.nodup_nil⟩ (by simp) (by simp) (by simp)
        -- facts from the catches
        obtain ⟨hInvC, hExtC, hrefsC⟩ :=
          readCatches_spec inp.catches lab0 hInv0
        -- facts from the attributes
        obtain ⟨hInv2, hExt2, hPw, hKeys, hVals⟩ :=
          processAttrs_spec p2i inp.attrs (readCatches lab0 inp.catches).2
            [] [] [] lab2 ti lv attrs0 hp hInvC (by simp)
            (by simp) (by simp [allVals])
        -- facts from the label insertion
        obtain ⟨hPw2, hKeys2⟩ :=
          insertLabels_sorted_keys p2i lab2 ti ti2 hil hPw hKeys
        have hIdsNodup : (lab2.map Prod.snd).Nodup := by
          rw [hInv2.1]
          exact List.nodup_range _
        have hCount := insertLabels_count p2i lab2 ti ti2 hil hIdsNodup
        have hVals2 : ∀ x ∈ allVals ti2,
            (∃ n, x = Instruction.lineNumber n) ∨
              (∃ l, x = Instruction.label l) := by
          refine insertLabels_vals p2i _ (fun l => Or.inr ⟨l, rfl⟩)
            lab2 ti ti2 hil ?_
          intro x hx
          exact Or.inl (hVals x hx)
        have hKeysLe : ∀ kv ∈ ti2, kv.1 ≤ insns.length := by
          intro kv hkv
          have := hKeys2 kv hkv
          rw [hp2i] at this
          have := List.mem_range.mp this
          omega
        have hEq : applyInserts ti2 insns = interleaveSpec ti2 insns :=
          applyInserts_eq_interleave ti2 insns hPw2 hKeysLe
        have hPerm := applyInserts_perm ti2 insns
        have hTiCount0 : ∀ l, (allVals ti).count (Instruction.label l) = 0 := by
          intro l
          rw [List.count_eq_zero]
          intro hmem
          obtain ⟨n, hn⟩ := hVals _ hmem
          exact Instruction.noConfusion hn
        have hInsnsCount0 : ∀ l,
            insns.count (Instruction.label l) = 0 := by
          intro l
          rw [List.count_eq_zero]
          intro hmem
          exact (hnl0 _ hmem).1 l rfl
        refine ⟨hEq, ?_, ?_, ?_⟩
        · intro off l hm
          constructor
          · rw [hPerm.count_eq, List.count_append, hCount l, hTiCount0 l,
              hInsnsCount0 l]
            have hidm : l ∈ lab2.map Prod.snd :=
              List.mem_map.mpr ⟨(off, l), hm, rfl⟩
            simp [hidm]
          · exact insertLabels_mem p2i lab2 ti ti2 hil off l hm
        · intro i hi x hx
          have hi2 : i ∈ allVals ti2 ++ insns := hPerm.mem_iff.mp hi
          rcases List.mem_append.mp hi2 with hm | hm
          · rcases hVals2 i hm with ⟨n, hn⟩ | ⟨l, hn⟩ <;>
              (subst hn; simp [Instruction.refLabels] at hx)
          · obtain ⟨off, ho⟩ := hrefs0 i hm x hx
            exact ⟨off, mem_of_extend hExt2 (mem_of_extend hExtC ho)⟩
        · intro c hc x hx
          obtain ⟨off, ho⟩ := hrefsC c hc x hx
          exact ⟨off, mem_of_extend hExt2 ho⟩

/-- Witness for C8: reading `goto +3; return` mints one label (byte offset 3,
id 0); the result interleaves `Label 0` before the instruction at index 1 and
the label occurs exactly once. -/
theorem read_minted_labels_spec_witness :
    ∃ t, readCodeAux c8inp = .ok t ∧
      t.result.code.count (Instruction.label 0) = 1 ∧
      t.result.code = interleaveSpec t.toIns t.insns ∧
      alookup t.p2i 3 = some 1 := by
  have hread : readCodeAux c8inp =
      .ok ⟨[.jump .always 0, .return_], [(0, 0), (3, 1), (4, 2)], [(3, 0)],
        [(1, [.label 0])],
        ⟨0, 0, [.jump .always 0, .label 0, .return_], [], []⟩⟩ := by
    simp [readCodeAux, c8inp, disasm, decodeInsn, getLabelR, alookup,
      i16OfBytes, readCatches, processAttrs, insertLabels, btPut,
      applyInserts, insAt]
  have h := read_minted_labels_spec c8inp _ hread
  refine ⟨_, hread, ?_, h.1, by decide⟩
  exact (h.2.1 3 0 (by decide)).1
